import Mathlib

/-!
Verification development for the target-tier-docs generator.

The Rust sources live in `src/main.rs`, `src/parse.rs` and `src/render.rs`.
Strings are modelled as lists of characters (`Str`); Rust's standard string
operations used by the program (`split`, `split_once`, `lines`, `trim`,
`starts_with`, `strip_prefix`, `replace`, `join`) are embedded below as
executable functions on `Str`.
-/

set_option autoImplicit false
set_option maxRecDepth 4000

/-- Characters as Rust sees strings: a string is its list of characters. -/
abbrev Str := List Char

/-- Coerce a Lean string literal to the `Str` model. -/
def str (s : String) : Str := s.data

/-- Whitespace test modelling Rust's `char::is_whitespace` on the characters
that occur in this program's documents (ASCII whitespace). -/
def isWhite (c : Char) : Bool :=
  c = ' ' || c = '\t' || c = '\n' || c = '\r' || c = '\x0b' || c = '\x0c'

/-- Rust `line.trim().is_empty()`: every character is whitespace. -/
def isBlank (l : Str) : Bool := l.all isWhite

/-- Rust `s.starts_with(p)` for a string pattern. -/
def startsWithStr (p s : Str) : Bool :=
  match p, s with
  | [], _ => true
  | _ :: _, [] => false
  | c :: p', d :: s' => c = d && startsWithStr p' s'

/-- Rust `s.strip_prefix(p)`: `some` of the remainder when `p` is a prefix. -/
def dropPrefixStr (p s : Str) : Option Str :=
  match p, s with
  | [], _ => some s
  | _ :: _, [] => none
  | c :: p', d :: s' => if c = d then dropPrefixStr p' s' else none

/-- Rust `s.contains(' ')` and friends for a single-character pattern. -/
def containsChar (c : Char) (s : Str) : Bool := s.any (fun d => d = c)

/-- First occurrence of `sep` in `s`: `some (before, after)` with the
occurrence itself removed.  This is Rust's `str::split_once`. -/
def breakOnSep (sep : Str) : Str → Option (Str × Str)
  | [] => if sep.isEmpty then some ([], []) else none
  | c :: s' =>
    if startsWithStr sep (c :: s') then some ([], (c :: s').drop sep.length)
    else match breakOnSep sep s' with
      | some (b, a) => some (c :: b, a)
      | none => none

/-- Fuelled worker for `splitOnStr`. -/
def splitOnAux (sep : Str) : Nat → Str → List Str
  | 0, s => [s]
  | fuel + 1, s =>
    match breakOnSep sep s with
    | none => [s]
    | some (b, a) => b :: splitOnAux sep fuel a

/-- Rust `str::split` with a non-empty string pattern: the pieces between
consecutive occurrences of `sep` (always at least one piece). -/
def splitOnStr (sep s : Str) : List Str := splitOnAux sep (s.length + 1) s

/-- Rust `str::replace`: split on the pattern, join with the replacement. -/
def replaceStr (pat rep s : Str) : Str :=
  joinSep rep (splitOnStr pat s)
where
  /-- Rust `[&str]::join`. -/
  joinSep (sep : Str) : List Str → Str
    | [] => []
    | [x] => x
    | x :: xs => x ++ sep ++ joinSep sep xs

/-- Rust `[&str]::join`, used for `rows.join("\n")` in the renderer. -/
def joinSep (sep : Str) : List Str → Str
  | [] => []
  | [x] => x
  | x :: xs => x ++ sep ++ joinSep sep xs

/-- Prepend a character to the first piece of a piece list. -/
def consHead (x : Char) : List Str → List Str
  | [] => [[x]]
  | r :: rs => (x :: r) :: rs

/-- Split at every occurrence of one character; keeps empty pieces,
including a final empty piece for a trailing separator. -/
def splitChar (c : Char) : Str → List Str
  | [] => [[]]
  | x :: xs => if x = c then [] :: splitChar c xs else consHead x (splitChar c xs)

/-- Strip one trailing carriage return, as Rust's `lines` does per line. -/
def stripCR (l : Str) : Str :=
  match l.reverse with
  | '\r' :: t => t.reverse
  | _ => l

/-- Rust `str::lines`: split on `'\n'`; every piece that was terminated by a
`'\n'` has one trailing `'\r'` stripped; a final empty piece is dropped. -/
def linesOf (s : Str) : List Str := linesOfAux (splitChar '\n' s)
where
  linesOfAux : List Str → List Str
    | [] => []
    | [last] => if last.isEmpty then [] else [last]
    | p :: ps => stripCR p :: linesOfAux ps

/-- Rust `str::trim` restricted to the modelled whitespace set. -/
def trimStr (l : Str) : Str :=
  ((l.dropWhile isWhite).reverse.dropWhile isWhite).reverse

/-! ## Data model of `src/parse.rs` -/

/-- Enum `Tier` of `src/parse.rs` (serde names "1", "2", "3"). -/
inductive Tier where
  | One
  | Two
  | Three
  deriving DecidableEq

/-- Enum `TriStateBool` of `src/parse.rs`. -/
inductive TriStateBool where
  | True
  | False
  | Unknown
  deriving DecidableEq

/-- Struct `Footnote` of `src/parse.rs`. -/
structure Footnote where
  name : Str
  content : Str
  deriving DecidableEq

/-- Struct `ParsedTargetMetadata` of `src/parse.rs`. -/
structure ParsedTargetMetadata where
  pattern : Str
  notes : Str
  std : TriStateBool
  host : TriStateBool
  footnotes : List Footnote
  deriving DecidableEq

/-- Struct `Frontmatter` of `src/parse.rs` (the YAML schema). -/
structure Frontmatter where
  tier : Option Tier
  maintainers : List Str
  metadata : List ParsedTargetMetadata
  deriving DecidableEq

/-- Struct `ParsedTargetInfoFile` of `src/parse.rs`. -/
structure ParsedTargetInfoFile where
  pattern : Str
  tier : Option Tier
  maintainers : List Str
  sections : List (Str × Str)
  metadata : List ParsedTargetMetadata
  deriving DecidableEq

/-- Constant `SECTIONS` of `src/main.rs`: the fixed allowed section names. -/
def SECTIONS : List Str :=
  [str "Requirements", str "Testing", str "Building", str "Cross compilation",
   str "Building Rust programs"]

/-- The error outcomes of `parse_file` in `src/parse.rs`; each constructor
stands for one `bail!`/`ok_or_eyre` site, carrying the data interpolated
into its message. -/
inductive ParseErr where
  /-- Line 94: "missing frontmatter". -/
  | missingFrontmatter
  /-- Line 99: "invalid frontmatter", wrapping the YAML decoder's error. -/
  | invalidFrontmatter (e : Str)
  /-- Line 108: "no body". -/
  | noBody
  /-- Line 126: "line {number} with content not allowed before the first heading". -/
  | contentBeforeHeading (number : Nat)
  /-- Line 131: "on line {number}, `{header}` is not an allowed section name". -/
  | invalidSectionName (number : Nat) (header : Str)
  /-- Line 138: "on line {number}, the only allowed headings are `## `". -/
  | invalidHeading (number : Nat) (line : Str)
  /-- Line 147: "line with content not allowed before the first heading". -/
  | contentBeforeHeadingNoNumber
  deriving DecidableEq

/-- The mutable scanner state of the body loop of `parse_file`:
`in_codeblock` plus the accumulated `sections` vector. -/
structure ScanState where
  inCodeblock : Bool
  sections : List (Str × Str)
  deriving DecidableEq

/-- Rust `sections.last_mut()` followed by `content.push_str(line); content.push('\n')`:
append `line` and a newline to the body of the last section. -/
def appendToLast : List (Str × Str) → Str → List (Str × Str)
  | [], _ => []
  | [(n, b)], line => [(n, b ++ line ++ ['\n'])]
  | p :: q :: rest, line => p :: appendToLast (q :: rest) line

/-- One iteration of the body loop of `parse_file` (`src/parse.rs`, lines
113-150), at source line `number`. -/
def scanLine (number : Nat) (st : ScanState) (line : Str) : Except ParseErr ScanState :=
  if startsWithStr (str "```") line then
    .ok { st with inCodeblock := !st.inCodeblock }
  else if startsWithStr (str "#") line then
    if st.inCodeblock then
      match st.sections with
      | [] => if isBlank line then .ok st else .error (.contentBeforeHeading number)
      | _ :: _ => .ok { st with sections := appendToLast st.sections line }
    else
      match dropPrefixStr (str "## ") line with
      | some header =>
        if SECTIONS.contains header then
          .ok { st with sections := st.sections ++ [(header, [])] }
        else
          .error (.invalidSectionName number header)
      | none => .error (.invalidHeading number line)
  else
    match st.sections with
    | [] => if isBlank line then .ok st else .error .contentBeforeHeadingNoNumber
    | _ :: _ => .ok { st with sections := appendToLast st.sections line }

/-- The body loop of `parse_file`: `for (idx, line) in body.lines().enumerate()`,
with `number = frontmatter_line_count + idx + 1`. -/
def scanLines (fmLineCount idx : Nat) (st : ScanState) : List Str → Except ParseErr ScanState
  | [] => .ok st
  | l :: ls =>
    match scanLine (fmLineCount + idx + 1) st l with
    | .error e => .error e
    | .ok st' => scanLines fmLineCount (idx + 1) st' ls

/-- The footnote normalisation of `parse_file` (lines 101-105): in every
metadata rule, every footnote's content has `"\r\n"` and then `"\n"`
replaced by single spaces. -/
def normalizeFootnote (footnote : Footnote) : Footnote :=
  { footnote with content := replaceStr (str "\n") (str " ")
                               (replaceStr (str "\r\n") (str " ") footnote.content) }

/-- The per-rule part of the normalisation. -/
def normalizeMeta (meta : ParsedTargetMetadata) : ParsedTargetMetadata :=
  { meta with footnotes := meta.footnotes.map normalizeFootnote }

/-- The whole-frontmatter normalisation applied after decoding. -/
def normalizeFrontmatter (fm : Frontmatter) : Frontmatter :=
  { fm with metadata := fm.metadata.map normalizeMeta }

/-- Function `parse_file` of `src/parse.rs`.  The YAML decoding done by the external
`serde_yaml` crate is abstracted as the parameter `decodeFm`.  The content is
split on every occurrence of `"---\n"`; piece 1 (`nth(1)`) is the
frontmatter, the following piece (the iterator's subsequent `next()`) is the
body.  The body is scanned line by line and each section body is trimmed. -/
def parse_file (decodeFm : Str → Except Str Frontmatter) (name content : Str) :
    Except ParseErr ParsedTargetInfoFile :=
  match splitOnStr (str "---\n") content with
  | _ :: fmStr :: rest =>
    let fmLineCount := (linesOf fmStr).length + 2
    match decodeFm fmStr with
    | .error e => .error (.invalidFrontmatter e)
    | .ok fm0 =>
      let fm := normalizeFrontmatter fm0
      match rest with
      | [] => .error .noBody
      | body :: _ =>
        match scanLines fmLineCount 0 ⟨false, []⟩ (linesOf body) with
        | .error e => .error e
        | .ok st =>
          .ok { pattern := name, tier := fm.tier, maintainers := fm.maintainers,
                sections := st.sections.map (fun q => (q.1, trimStr q.2)),
                metadata := fm.metadata }
  | _ => .error .missingFrontmatter

/-- A decidable-equality instance for `Except`, so concrete runs of the
embedded functions can be settled by `decide`. -/
instance instDecEqExcept {ε α : Type} [DecidableEq ε] [DecidableEq α] :
    DecidableEq (Except ε α) := fun x y =>
  match x, y with
  | .ok a, .ok b =>
    if h : a = b then isTrue (by rw [h]) else
      isFalse (by intro hc; injection hc with h'; exact h h')
  | .error a, .error b =>
    if h : a = b then isTrue (by rw [h]) else
      isFalse (by intro hc; injection hc with h'; exact h h')
  | .ok _, .error _ => isFalse (by intro hc; injection hc)
  | .error _, .ok _ => isFalse (by intro hc; injection hc)

/-- A frontmatter decoder that always succeeds with a fixed result; stands
for `serde_yaml` on inputs it decodes successfully. -/
def decodeConst (fm : Frontmatter) : Str → Except Str Frontmatter := fun _ => .ok fm

/-! ## Glob matching

Modelled from the spec: identifier matching is performed by the external
`glob_match` crate, excluded from the sources; spec section 4.2 fixes its
semantics as standard shell-style glob (`*`, `?`, character classes),
case-sensitive and anchored to the whole identifier. -/

/-- Parse the body of a character class after `[` (and after an optional
leading `!`): a list of ranges (`a-z`) and single members, up to `]`.
Returns `none` for an unterminated or malformed class. -/
def parseClassBody : Str → Option (List (Char × Char) × Str)
  | ']' :: rest => some ([], rest)
  | lo :: '-' :: hi :: rest =>
    if hi = ']' then none
    else
      match parseClassBody rest with
      | some (rs, rest') => some ((lo, hi) :: rs, rest')
      | none => none
  | c :: rest =>
    match parseClassBody rest with
    | some (rs, rest') => some ((c, c) :: rs, rest')
    | none => none
  | [] => none

/-- Fuelled worker for `glob`; `pattern.length + text.length + 1` fuel always
suffices since every step shortens the pattern or the text. -/
def globAux : Nat → Str → Str → Bool
  | 0, _, _ => false
  | _ + 1, [], s => s.isEmpty
  | fuel + 1, '*' :: p, s =>
    globAux fuel p s ||
      (match s with
       | [] => false
       | _ :: s' => globAux fuel ('*' :: p) s')
  | fuel + 1, '?' :: p, s =>
    (match s with
     | [] => false
     | _ :: s' => globAux fuel p s')
  | fuel + 1, '[' :: p, s =>
    (match (match p with
            | '!' :: p1 => (true, p1)
            | _ => (false, p)) with
     | (neg, p1) =>
       match parseClassBody p1 with
       | none => false
       | some (ranges, prest) =>
         match s with
         | [] => false
         | d :: s' =>
           (ranges.any (fun r => decide (r.1 ≤ d) && decide (d ≤ r.2)) != neg)
             && globAux fuel prest s')
  | fuel + 1, c :: p, s =>
    match s with
    | [] => false
    | d :: s' => c = d && globAux fuel p s'

/-- Modelled from the spec: `glob_match::glob_match(pattern, target)` of the
external `glob_match` crate (spec section 4.2). -/
def glob (p s : Str) : Bool := globAux (p.length + s.length + 1) p s

/-! ## Resolution engine of `src/main.rs` -/

/-- Struct `TargetPatternEntry` of `src/main.rs`: a parsed document plus its
usage flag (created with `used: false` at load time). -/
structure TargetPatternEntry where
  info : ParsedTargetInfoFile
  used : Bool
  deriving DecidableEq

/-- Struct `TargetDocs` of `src/main.rs` (tier rendered as a string, with
`"UNKNOWN"` when absent). -/
structure TargetDocs where
  name : Str
  maintainers : List Str
  sections : List (Str × Str)
  tier : Str
  deriving DecidableEq

/-- The textual form of a tier used by `TargetDocs.tier` in `src/main.rs`. -/
def tierString : Tier → Str
  | .One => str "1"
  | .Two => str "2"
  | .Three => str "3"

/-- The two panic sites of `target_info` in `src/main.rs`, as errors:
"target {target} inherits a tier from multiple patterns" and
"target {target} inherits the section {section_name} from multiple
patterns". -/
inductive ResolveErr where
  | multipleTier (target : Str)
  | multipleSection (target sectionName : Str)
  deriving DecidableEq

/-- Rust `sections.iter().any(|(name, _)| name == section_name)`. -/
def containsName (sections : List (Str × Str)) (n : Str) : Bool :=
  sections.any (fun q => q.1 == n)

/-- The inner `for (section_name, content) in &target_pattern.sections` loop
of `target_info`: insert each declared section, failing on a name already
present. -/
def insertSections (target : Str) (acc : List (Str × Str)) :
    List (Str × Str) → Except ResolveErr (List (Str × Str))
  | [] => .ok acc
  | (n, c) :: rest =>
    if containsName acc n then .error (.multipleSection target n)
    else insertSections target (acc ++ [(n, c)]) rest

/-- The entry loop of `target_info` (`src/main.rs`, lines 231-252), carrying
the `tier`, `maintainers` and `sections` accumulators and returning the
entries with updated `used` flags. -/
def targetInfoGo (target : Str) (tierAcc : Option Tier) (maint : List Str)
    (secAcc : List (Str × Str)) :
    List TargetPatternEntry →
    Except ResolveErr (List TargetPatternEntry × Option Tier × List Str × List (Str × Str))
  | [] => .ok ([], tierAcc, maint, secAcc)
  | e :: es =>
    if glob e.info.pattern target then
      if e.info.tier.isSome && tierAcc.isSome then .error (.multipleTier target)
      else
        match insertSections target secAcc e.info.sections with
        | .error er => .error er
        | .ok secAcc' =>
          match targetInfoGo target (if e.info.tier.isSome then e.info.tier else tierAcc)
              (maint ++ e.info.maintainers) secAcc' es with
          | .error er => .error er
          | .ok (es', t', m', s') => .ok ({ e with used := true } :: es', t', m', s')
    else
      match targetInfoGo target tierAcc maint secAcc es with
      | .error er => .error er
      | .ok (es', t', m', s') => .ok (e :: es', t', m', s')

/-- Function `target_info` of `src/main.rs`: resolve one identifier against every
pattern entry; panics are modelled as errors, and the mutation of the `used`
flags as the returned updated entry list. -/
def target_info (entries : List TargetPatternEntry) (target : Str) :
    Except ResolveErr (List TargetPatternEntry × TargetDocs) :=
  match targetInfoGo target none [] [] entries with
  | .error e => .error e
  | .ok (es', tierAcc, maint, secs) =>
    .ok (es', { name := target, maintainers := maint, sections := secs,
                tier := match tierAcc with
                        | some t => tierString t
                        | none => str "UNKNOWN" })

/-- The per-target loop of `main` (`src/main.rs`, lines 69-81): resolve every
known identifier in order, threading the usage flags. -/
def resolveAll : List TargetPatternEntry → List Str →
    Except ResolveErr (List TargetPatternEntry × List TargetDocs)
  | entries, [] => .ok (entries, [])
  | entries, t :: ts =>
    match target_info entries t with
    | .error e => .error e
    | .ok (entries', doc) =>
      match resolveAll entries' ts with
      | .error e => .error e
      | .ok (entries'', docs) => .ok (entries'', doc :: docs)

/-- The text of the `bail!` in `main` (`src/main.rs`, lines 83-90) naming a
never-used pattern. -/
def unusedMessage (p : Str) : Str :=
  str "target pattern `" ++ p ++ str "` was never used"

/-- The validation pass of `main` (`src/main.rs`, lines 83-90): fail on the
first entry whose `used` flag is still false. -/
def validate : List TargetPatternEntry → Except Str Unit
  | [] => .ok ()
  | e :: es => if e.used then validate es else .error (unusedMessage e.info.pattern)

/-! ## Resolution engine with metadata rules

Modelled from the spec: `src/main.rs` as shipped under src/ carries no
metadata-rule handling, while `src/render.rs` consumes a `TargetDocs`
record with a `metadata` field; the crate root declaring that record and
resolving metadata rules is not under src/.  The definitions below follow
spec sections 3, 4.2 (step 5) and 4.3: nested rules whose pattern also
matches contribute a singleton metadata block, per-rule `metadata_used[]`
flags are set, and validation also reports never-used nested rules. -/

/-- The merge-conflict taxonomy of spec section 4.2 for the full engine. -/
inductive ResolveErrFull where
  | multipleTier (target : Str)
  | multipleSection (target sectionName : Str)
  | multipleMetadata (target : Str)
  deriving DecidableEq

/-- Modelled from the spec: a `PatternEntry` with its `used` flag and the
per-`MetadataRule` `metadata_used[]` flags (spec section 3); `metadataUsed`
is parallel to `info.metadata`. -/
structure FullPatternEntry where
  info : ParsedTargetInfoFile
  used : Bool
  metadataUsed : List Bool
  deriving DecidableEq

/-- Modelled from the spec: the resolved record consumed by `src/render.rs`
(the `TargetDocs` struct of the crate root, absent from src/); its fields
are exactly those `render.rs` accesses, per spec section 3's
ResolvedRecord. -/
structure TargetDocsFull where
  name : Str
  maintainers : List Str
  sections : List (Str × Str)
  tier : Option Tier
  metadata : Option ParsedTargetMetadata
  deriving DecidableEq

/-- Section insertion for the full engine (same algorithm as
`insertSections`, with the full error type). -/
def insertSectionsFull (target : Str) (acc : List (Str × Str)) :
    List (Str × Str) → Except ResolveErrFull (List (Str × Str))
  | [] => .ok acc
  | (n, c) :: rest =>
    if containsName acc n then .error (.multipleSection target n)
    else insertSectionsFull target (acc ++ [(n, c)]) rest

/-- Modelled from the spec, section 4.2 step 5: walk one matching entry's
nested metadata rules with their usage flags; every rule whose nested
pattern glob-matches the identifier is marked used, and a second matching
rule after the record's block is set is a conflict. -/
def processMetaGo (target : Str) :
    List ParsedTargetMetadata → List Bool → Option ParsedTargetMetadata →
    Except ResolveErrFull (List Bool × Option ParsedTargetMetadata)
  | [], _, acc => .ok ([], acc)
  | r :: rs, flags, acc =>
    if glob r.pattern target then
      if acc.isSome then .error (.multipleMetadata target)
      else
        match processMetaGo target rs flags.tail (some r) with
        | .error e => .error e
        | .ok (fs, acc') => .ok (true :: fs, acc')
    else
      match processMetaGo target rs flags.tail acc with
      | .error e => .error e
      | .ok (fs, acc') => .ok (flags.headD false :: fs, acc')

/-- Modelled from the spec, section 4.2: the entry loop of the full engine;
steps 1-4 as in `targetInfoGo` of `src/main.rs`, plus step 5 for metadata. -/
def fullGo (target : Str) (tierAcc : Option Tier) (maint : List Str)
    (secAcc : List (Str × Str)) (metaAcc : Option ParsedTargetMetadata) :
    List FullPatternEntry →
    Except ResolveErrFull
      (List FullPatternEntry × Option Tier × List Str × List (Str × Str) ×
        Option ParsedTargetMetadata)
  | [] => .ok ([], tierAcc, maint, secAcc, metaAcc)
  | e :: es =>
    if glob e.info.pattern target then
      if e.info.tier.isSome && tierAcc.isSome then .error (.multipleTier target)
      else
        match insertSectionsFull target secAcc e.info.sections with
        | .error er => .error er
        | .ok secAcc' =>
          match processMetaGo target e.info.metadata e.metadataUsed metaAcc with
          | .error er => .error er
          | .ok (flags', metaAcc') =>
            match fullGo target (if e.info.tier.isSome then e.info.tier else tierAcc)
                (maint ++ e.info.maintainers) secAcc' metaAcc' es with
            | .error er => .error er
            | .ok (es', out) =>
              .ok ({ e with used := true, metadataUsed := flags' } :: es', out)
    else
      match fullGo target tierAcc maint secAcc metaAcc es with
      | .error er => .error er
      | .ok (es', out) => .ok (e :: es', out)

/-- Modelled from the spec, section 4.2: resolve one identifier with the
full engine, producing the updated store and the ResolvedRecord. -/
def target_info_full (entries : List FullPatternEntry) (target : Str) :
    Except ResolveErrFull (List FullPatternEntry × TargetDocsFull) :=
  match fullGo target none [] [] none entries with
  | .error e => .error e
  | .ok (es', tierAcc, maint, secs, metaAcc) =>
    .ok (es', { name := target, maintainers := maint, sections := secs,
                tier := tierAcc, metadata := metaAcc })

/-- Modelled from the spec: the full resolution pass over every known
identifier in order. -/
def resolveAllFull : List FullPatternEntry → List Str →
    Except ResolveErrFull (List FullPatternEntry × List TargetDocsFull)
  | entries, [] => .ok (entries, [])
  | entries, t :: ts =>
    match target_info_full entries t with
    | .error e => .error e
    | .ok (entries', doc) =>
      match resolveAllFull entries' ts with
      | .error e => .error e
      | .ok (entries'', docs) => .ok (entries'', doc :: docs)

/-- The validation-pass error taxonomy of spec section 4.3: an unused
pattern, or an unused nested metadata sub-pattern within a pattern. -/
inductive ValidateErr where
  | unusedPattern (pattern : Str)
  | unusedMetadata (pattern subPattern : Str)
  deriving DecidableEq

/-- Modelled from the spec, section 4.3: scan one entry's nested-rule usage
flags, failing on the first rule never used. -/
def validateMetaFlags (p : Str) :
    List ParsedTargetMetadata → List Bool → Except ValidateErr Unit
  | [], _ => .ok ()
  | r :: rs, flags =>
    if flags.headD false then validateMetaFlags p rs flags.tail
    else .error (.unusedMetadata p r.pattern)

/-- Modelled from the spec, section 4.3: the validation pass of the full
engine; every entry must be used, and every nested rule of every entry must
be used. -/
def validateFull : List FullPatternEntry → Except ValidateErr Unit
  | [] => .ok ()
  | e :: es =>
    if e.used then
      match validateMetaFlags e.info.pattern e.info.metadata e.metadataUsed with
      | .error er => .error er
      | .ok _ => validateFull es
    else .error (.unusedPattern e.info.pattern)

/-! ## Renderer of `src/render.rs` -/

/-- Struct `RustcTargetInfo` of `src/main.rs`: externally supplied
per-identifier facts. -/
structure RustcTargetInfo where
  target_cfgs : List (Str × Str)
  deriving DecidableEq

/-- The maintainer transformation inside `render_target_md`
(`src/render.rs` lines 47-58, identical in `src/main.rs` lines 112-123):
a handle starting with `@` and containing no space becomes a GitHub profile
link; anything else is kept as literal text. -/
def maintainerEntry (maintainer : Str) : Str :=
  if startsWithStr (str "@") maintainer && !containsChar ' ' maintainer then
    match dropPrefixStr (str "@") maintainer with
    | some rest => str "[@" ++ rest ++ str "](https://github.com/" ++ rest ++ str ")"
    | none => maintainer
  else maintainer

/-- The maintainers paragraph of `render_target_md` (`src/render.rs`
lines 39-62). -/
def maintainersContent (maintainers : List Str) : Str :=
  if maintainers.isEmpty then str "This target does not have any maintainers!"
  else
    str "This target is maintained by:\n" ++
      joinSep (str "\n") (maintainers.map (fun m => str "- " ++ maintainerEntry m))

/-- The `section` closure of `render_target_md` (`src/render.rs`
lines 31-37). -/
def sectionBlock (name content : Str) : Str :=
  str "## " ++ trimStr name ++ str "\n" ++ trimStr content ++ str "\n\n"

/-- Rust `target.sections.iter().find(|(name, _)| name == section_name)`
with the `"Unknown."` fallback (`src/render.rs` lines 66-77). -/
def sectionContent (sections : List (Str × Str)) (sectionName : Str) : Str :=
  match sections.find? (fun q => q.1 == sectionName) with
  | some q => q.2
  | none => str "Unknown."

/-- The tier text of `render_target_md` (`src/render.rs` lines 23-28). -/
def tierText : Option Tier → Str
  | some .One => str "1"
  | some .Two => str "2"
  | some .Three => str "3"
  | none => str "UNKNOWN"

/-- The cfg paragraph of `render_target_md` (`src/render.rs` lines 79-86). -/
def cfgContent (rustc_info : RustcTargetInfo) : Str :=
  str "This target defines the following target-specific cfg values:\n" ++
    joinSep (str "\n")
      (rustc_info.target_cfgs.map
        (fun q => str "- `" ++ q.1 ++ str "` = `" ++ q.2 ++ str "`")) ++
    str "\n"

/-- Function `render_target_md` of `src/render.rs`: title and tier header, the
maintainers section, one block per allowed section name in fixed order, and
the cfg block. -/
def render_target_md (target : TargetDocsFull) (rustc_info : RustcTargetInfo) : Str :=
  str "# " ++ target.name ++ str "\n\n**Tier: " ++ tierText target.tier ++ str "**\n\n" ++
    sectionBlock (str "Maintainers") (maintainersContent target.maintainers) ++
    (SECTIONS.map
      (fun sectionName => sectionBlock sectionName (sectionContent target.sections sectionName))).foldr
      (· ++ ·) [] ++
    sectionBlock (str "cfg") (cfgContent rustc_info)

/-- The start marker line of `replace_section`. -/
def startMarker (sectionName : Str) : Str :=
  str "<!-- " ++ sectionName ++ str " SECTION START -->"

/-- The end marker line of `replace_section`. -/
def endMarker (sectionName : Str) : Str :=
  str "<!-- " ++ sectionName ++ str " SECTION END -->"

/-- Function `replace_section` of `src/render.rs` lines 96-112 (identical in
`src/main.rs` lines 161-177): split once on the start marker, split the
remainder once on the end marker, and re-assemble with the replacement
between the markers on its own lines. -/
def replace_section (prev_content sectionName replacement : Str) : Except Str Str :=
  match breakOnSep (startMarker sectionName) prev_content with
  | none => .error (str "<!-- TARGET SECTION START --> not found")
  | some (pre_target, target_and_after) =>
    match breakOnSep (endMarker sectionName) target_and_after with
    | none => .error (str "<!-- TARGET SECTION START --> not found")
    | some (_, post_target) =>
      .ok (pre_target ++ startMarker sectionName ++ str "\n" ++ replacement ++
            str "\n" ++ endMarker sectionName ++ post_target)

/-- Struct `TierTable` of `src/render.rs`. -/
structure TierTable where
  filter : TargetDocsFull → Bool
  include_std : Bool
  include_host : Bool

/-- Function `render_table_tri_state_bool` of `src/render.rs`. -/
def render_table_tri_state_bool (b : TriStateBool) : Str :=
  match b with
  | .True => str "✓"
  | .False => str " "
  | .Unknown => str "?"

/-- Method `reference` of `Footnote` in `src/render.rs`: the `[^name]` marker. -/
def footnoteRef (f : Footnote) : Str := str "[^" ++ f.name ++ str "]"

/-- The footnotes a row contributes to `all_footnotes` in `render_table`:
the row's metadata footnotes (the Rust code extends only when the list is
non-empty, which is the same accumulation). -/
def rowFootnotes (t : TargetDocsFull) : List Footnote :=
  match t.metadata with
  | some meta => meta.footnotes
  | none => []

/-- The notes cell of a row of `render_table` (`src/render.rs`
lines 241-256). -/
def rowNotes (t : TargetDocsFull) : Str :=
  let notes := match t.metadata with
               | some meta => meta.notes
               | none => str "unknown"
  match t.metadata with
  | some meta =>
    if meta.footnotes.isEmpty then notes
    else notes ++ str " " ++ joinSep (str " ") (meta.footnotes.map footnoteRef)
  | none => notes

/-- One row of `render_table` (`src/render.rs` lines 258-279). -/
def renderRow (table : TierTable) (t : TargetDocsFull) : Str :=
  str "[`" ++ t.name ++ str "`](platform-support/targets/" ++ t.name ++ str ".md)" ++
    (if table.include_std then
       str " | " ++ (match t.metadata with
                     | some meta => render_table_tri_state_bool meta.std
                     | none => str "?")
     else []) ++
    (if table.include_host then
       str " | " ++ (match t.metadata with
                     | some meta => render_table_tri_state_bool meta.host
                     | none => str "?")
     else []) ++
    str " | " ++ rowNotes t

/-- The filtered targets of `render_table` (`src/render.rs` lines 234-236). -/
def includedTargets (targets : List (TargetDocsFull × RustcTargetInfo)) (table : TierTable) :
    List (TargetDocsFull × RustcTargetInfo) :=
  targets.filter (fun p => table.filter p.1)

/-- The `all_footnotes` accumulation of `render_table`: each included row's
footnotes, appended in row order. -/
def tableFootnotes (targets : List (TargetDocsFull × RustcTargetInfo)) (table : TierTable) :
    List Footnote :=
  (includedTargets targets table).foldl (fun acc p => acc ++ rowFootnotes p.1) []

/-- The footnote lines appended below the table (`src/render.rs`
lines 284-289): for each collected footnote, a blank line and then
`[^name]: content`. -/
def footnoteBlock (fns : List Footnote) : Str :=
  fns.foldl (fun acc f => acc ++ str "\n\n" ++ footnoteRef f ++ str ": " ++ f.content) []

/-- Function `render_table` of `src/render.rs`: the joined rows of every included
target followed by the collected footnote lines.  The single Rust loop
accumulates `rows` and `all_footnotes` simultaneously; it is rendered here
as the row map and the `tableFootnotes` accumulation over the same filtered
list in the same order. -/
def render_table (targets : List (TargetDocsFull × RustcTargetInfo)) (table : TierTable) : Str :=
  joinSep (str "\n") ((includedTargets targets table).map (fun p => renderRow table p.1)) ++
    footnoteBlock (tableFootnotes targets table)


/-! ## Shared lemmas about the string model -/

theorem str_hash : str "#" = ['#'] := rfl

theorem str_fence : str "```" = ['`', '`', '`'] := rfl

theorem str_h2 : str "## " = ['#', '#', ' '] := rfl

/-- A line that starts with `#` cannot start with the fence marker. -/
theorem not_fence_of_hash (l : Str) (h : startsWithStr (str "#") l = true) :
    startsWithStr (str "```") l = false := by
  cases l with
  | nil => rw [str_hash] at h; exact absurd h (by simp [startsWithStr])
  | cons c cs =>
    rw [str_hash] at h
    simp only [startsWithStr, Bool.and_eq_true, decide_eq_true_eq] at h
    obtain ⟨hc, -⟩ := h
    subst hc
    simp [startsWithStr]

/-- Appending a line to the body of the last section, when the section list
ends with `(n, b)`. -/
theorem appendToLast_append (ss : List (Str × Str)) (n b line : Str) :
    appendToLast (ss ++ [(n, b)]) line = ss ++ [(n, b ++ line ++ ['\n'])] := by
  induction ss with
  | nil => rfl
  | cons p ps ih =>
    cases ps with
    | nil => simp [appendToLast]
    | cons q qs =>
      simp only [List.cons_append] at ih ⊢
      rw [appendToLast, ih]

/-- C5: a body line that starts with `#`, scanned while inside a fenced code
block with a section currently open, is appended verbatim together with its
trailing newline to the current (last) section's body; no new section is
started, the fence state is unchanged, and no heading error is raised. -/
theorem hash_line_in_fence_appended (number : Nat) (ss : List (Str × Str))
    (n b line : Str) (hhash : startsWithStr (str "#") line = true) :
    scanLine number ⟨true, ss ++ [(n, b)]⟩ line =
      .ok ⟨true, ss ++ [(n, b ++ line ++ ['\n'])]⟩ := by
  have hfence : startsWithStr (str "```") line = false := not_fence_of_hash line hhash
  cases ss with
  | nil => simp [scanLine, hfence, hhash, appendToLast]
  | cons p ps =>
    have h2 := appendToLast_append (p :: ps) n b line
    simp only [List.cons_append] at h2
    simp [scanLine, hfence, hhash, h2]

/-- Witness for C5: a concrete `# comment` line inside a fence is appended
to the open section. -/
theorem hash_line_in_fence_appended_witness :
    scanLine 7 ⟨true, [(str "Testing", str "x\n")]⟩ (str "# comment") =
      .ok ⟨true, [(str "Testing", str "x\n" ++ str "# comment" ++ ['\n'])]⟩ :=
  hash_line_in_fence_appended 7 [] (str "Testing") (str "x\n") (str "# comment") (by decide)

/-- A blank line cannot start with the fence marker. -/
theorem fence_false_of_blank (l : Str) (h : isBlank l = true) :
    startsWithStr (str "```") l = false := by
  cases l with
  | nil => rfl
  | cons c cs =>
    have hw : isWhite c = true := by
      simp only [isBlank, List.all_cons, Bool.and_eq_true] at h
      exact h.1
    have hc : c ≠ '`' := by
      intro he
      subst he
      simp [isWhite] at hw
    rw [str_fence]
    simp [startsWithStr, Ne.symm hc]

/-- A blank line cannot start with `#`. -/
theorem hash_false_of_blank (l : Str) (h : isBlank l = true) :
    startsWithStr (str "#") l = false := by
  cases l with
  | nil => rfl
  | cons c cs =>
    have hw : isWhite c = true := by
      simp only [isBlank, List.all_cons, Bool.and_eq_true] at h
      exact h.1
    have hc : c ≠ '#' := by
      intro he
      subst he
      simp [isWhite] at hw
    rw [str_hash]
    simp [startsWithStr, Ne.symm hc]

/-- Before any section is open, a blank line leaves the scanner state
unchanged. -/
theorem scanLine_blank_initial (number : Nat) (l : Str) (h : isBlank l = true) :
    scanLine number ⟨false, []⟩ l = .ok ⟨false, []⟩ := by
  simp [scanLine, fence_false_of_blank l h, hash_false_of_blank l h, h]

/-- Before any section is open, a non-blank line that is neither a fence
line nor a valid `## <allowed>` heading makes the scanner fail. -/
theorem scanLine_bad_initial (number : Nat) (l : Str) (hnb : isBlank l = false)
    (hnf : startsWithStr (str "```") l = false)
    (hnh : ∀ h, dropPrefixStr (str "## ") l = some h → SECTIONS.contains h = false) :
    ∃ e, scanLine number ⟨false, []⟩ l = .error e := by
  cases hhash : startsWithStr (str "#") l with
  | true =>
    cases hdp : dropPrefixStr (str "## ") l with
    | some header =>
      refine ⟨.invalidSectionName number header, ?_⟩
      have hmem : header ∉ SECTIONS := by simpa using hnh header hdp
      simp [scanLine, hnf, hhash, hdp, hmem]
    | none => exact ⟨.invalidHeading number l, by simp [scanLine, hnf, hhash, hdp]⟩
  | false =>
    exact ⟨.contentBeforeHeadingNoNumber, by simp [scanLine, hnf, hhash, hnb]⟩

/-- C6 (amended): in the body scan, blank lines before the first section
are dropped (they change neither the scanner state nor any section body,
only advancing the line counter), and the first non-blank line reached
before any section is open makes parsing fail unless it is a fence line
(starting with the fence marker) or a valid `## <allowed-name>` heading. -/
theorem content_before_heading_behavior :
    (∀ fmc idx (pre rest : List Str), (∀ l ∈ pre, isBlank l = true) →
        scanLines fmc idx ⟨false, []⟩ (pre ++ rest) =
          scanLines fmc (idx + pre.length) ⟨false, []⟩ rest) ∧
    (∀ fmc idx (l : Str) (rest : List Str), isBlank l = false →
        startsWithStr (str "```") l = false →
        (∀ h, dropPrefixStr (str "## ") l = some h → SECTIONS.contains h = false) →
        ∃ e, scanLines fmc idx ⟨false, []⟩ (l :: rest) = .error e) := by
  constructor
  · intro fmc idx pre
    induction pre generalizing idx with
    | nil => intro rest h; simp
    | cons l pre ih =>
      intro rest h
      have hl : isBlank l = true := h l (by simp)
      have hrest : ∀ l' ∈ pre, isBlank l' = true := fun l' hm => h l' (by simp [hm])
      have hstep := scanLine_blank_initial (fmc + idx + 1) l hl
      simp only [List.cons_append, scanLines, hstep, List.append_eq, List.length_cons]
      rw [ih (idx + 1) rest hrest]
      have harith : idx + 1 + pre.length = idx + (pre.length + 1) := by omega
      rw [harith]
  · intro fmc idx l rest hnb hnf hnh
    obtain ⟨e, he⟩ := scanLine_bad_initial (fmc + idx + 1) l hnb hnf hnh
    exact ⟨e, by simp [scanLines, he]⟩

/-- Witness for C6 (amended): two blank lines are dropped in front of a
content line, and the content line `"hello"` then fails the scan. -/
theorem content_before_heading_behavior_witness :
    scanLines 2 0 ⟨false, []⟩ ([str "", str "  "] ++ [str "hello"]) =
        scanLines 2 (0 + [str "", str "  "].length) ⟨false, []⟩ [str "hello"] ∧
    ∃ e, scanLines 2 0 ⟨false, []⟩ [str "hello"] = .error e :=
  ⟨content_before_heading_behavior.1 2 0 [str "", str "  "] [str "hello"] (by decide),
   content_before_heading_behavior.2 2 0 (str "hello") [] (by decide) (by decide)
     (by
       intro h hc
       rw [show dropPrefixStr (str "## ") (str "hello") = none from rfl] at hc
       exact Option.noConfusion hc)⟩

/-- A concrete always-succeeding frontmatter decoder, standing for
`serde_yaml` on an input it accepts. -/
def decodeTierOne : Str → Except Str Frontmatter :=
  decodeConst ⟨some Tier.One, [], []⟩

/-- C6 counterexample: the claim says every non-blank line before the first
section heading fails the parse, but a fence line is non-blank, appears
before any heading, and the document still parses successfully. -/
theorem content_before_heading_counterexample :
    parse_file decodeTierOne (str "t")
        (str "---\ntier: \"1\"\n---\n```\n```\n## Testing\nhi\n") =
      .ok { pattern := str "t", tier := some Tier.One, maintainers := [],
            sections := [(str "Testing", str "hi")], metadata := [] } ∧
    isBlank (str "```") = false := by
  constructor
  · decide
  · decide

/-- Concatenation of a list of strings (for stating body-shape lemmas). -/
def concatStr (l : List Str) : Str := l.foldr (· ++ ·) []

/-- A section body as accumulated by the scanner: a concatenation of
newline-terminated lines, none of which starts with the fence marker or
contains a newline. -/
def BodyLines (b : Str) : Prop :=
  ∃ ls : List Str, b = concatStr (ls.map (fun l => l ++ ['\n'])) ∧
    ∀ l ∈ ls, startsWithStr (str "```") l = false ∧ '\n' ∉ l

theorem concatStr_append (xs ys : List Str) :
    concatStr (xs ++ ys) = concatStr xs ++ concatStr ys := by
  induction xs with
  | nil => rfl
  | cons x xs ih =>
    simp only [concatStr, List.foldr_cons, List.cons_append] at ih ⊢
    rw [ih, List.append_assoc]

theorem splitChar_ne_nil (c : Char) (s : Str) : splitChar c s ≠ [] := by
  induction s with
  | nil => simp [splitChar]
  | cons x xs ih =>
    cases h : splitChar c xs with
    | nil => exact absurd h ih
    | cons p ps =>
      simp only [splitChar, h]
      split
      · simp
      · simp [consHead]

theorem splitChar_line_append (c : Char) (l r : Str) (h : c ∉ l) :
    splitChar c (l ++ c :: r) = l :: splitChar c r := by
  induction l with
  | nil =>
    cases hsp : splitChar c r with
    | nil => exact absurd hsp (splitChar_ne_nil c r)
    | cons p ps => simp [splitChar, hsp]
  | cons d l' ih =>
    have hd : d ≠ c := by intro he; exact h (by simp [he])
    have h' : c ∉ l' := fun hm => h (by simp [hm])
    simp only [List.cons_append, splitChar, List.append_eq, ih h', if_neg hd, consHead]

theorem splitChar_concat (ls : List Str) (h : ∀ l ∈ ls, '\n' ∉ l) :
    splitChar '\n' (concatStr (ls.map (fun l => l ++ ['\n']))) = ls ++ [[]] := by
  induction ls with
  | nil => rfl
  | cons l ls ih =>
    have hl : '\n' ∉ l := h l (by simp)
    have hrest : ∀ l' ∈ ls, '\n' ∉ l' := fun l' hm => h l' (by simp [hm])
    show splitChar '\n' (concatStr ((l ++ ['\n']) :: ls.map (fun l => l ++ ['\n']))) = _
    have : concatStr ((l ++ ['\n']) :: ls.map (fun l => l ++ ['\n'])) =
        l ++ '\n' :: concatStr (ls.map (fun l => l ++ ['\n'])) := by
      simp [concatStr, List.append_assoc]
    rw [this, splitChar_line_append '\n' l _ hl, ih hrest]
    simp

theorem bodyLines_nil : BodyLines [] := ⟨[], rfl, by simp⟩

theorem bodyLines_append (b line : Str) (hb : BodyLines b)
    (h1 : startsWithStr (str "```") line = false) (h2 : '\n' ∉ line) :
    BodyLines (b ++ line ++ ['\n']) := by
  obtain ⟨ls, rfl, hl⟩ := hb
  refine ⟨ls ++ [line], ?_, ?_⟩
  · rw [List.map_append, concatStr_append]
    simp [concatStr, List.append_assoc]
  · intro l hm
    rcases List.mem_append.mp hm with hin | hone
    · exact hl l hin
    · rw [List.mem_singleton.mp hone]; exact ⟨h1, h2⟩

theorem bodyLines_noFence (b : Str) (hb : BodyLines b) :
    ∀ p ∈ splitChar '\n' b, startsWithStr (str "```") p = false := by
  obtain ⟨ls, rfl, hl⟩ := hb
  rw [splitChar_concat ls (fun l hm => (hl l hm).2)]
  intro p hp
  rcases List.mem_append.mp hp with hin | hone
  · exact (hl p hin).1
  · rw [List.mem_singleton.mp hone]; rfl

theorem appendToLast_preserve (ss : List (Str × Str)) (line : Str)
    (h : ∀ q ∈ ss, BodyLines q.2)
    (h1 : startsWithStr (str "```") line = false) (h2 : '\n' ∉ line) :
    ∀ q ∈ appendToLast ss line, BodyLines q.2 := by
  induction ss with
  | nil => simp [appendToLast]
  | cons p ps ih =>
    cases ps with
    | nil =>
      obtain ⟨n, b⟩ := p
      intro q0 hq0
      rw [appendToLast] at hq0
      rw [List.mem_singleton.mp hq0]
      exact bodyLines_append b line (h (n, b) (by simp)) h1 h2
    | cons p2 ps2 =>
      obtain ⟨n1, b1⟩ := p
      intro q0 hq0
      rw [appendToLast] at hq0
      rcases List.mem_cons.mp hq0 with rfl | hin
      · exact h (n1, b1) (by simp)
      · exact ih (fun q' hq' => h q' (by simp [hq'])) q0 hin

theorem scanLine_bodyLines (number : Nat) (st : ScanState) (line : Str)
    (st' : ScanState) (hl : '\n' ∉ line)
    (h : scanLine number st line = .ok st')
    (hinv : ∀ q ∈ st.sections, BodyLines q.2) :
    ∀ q ∈ st'.sections, BodyLines q.2 := by
  unfold scanLine at h
  split at h
  · -- fence line: toggle only
    next hfence =>
    injection h with h2
    subst h2
    exact hinv
  · next hnotfence =>
    have hfeq : startsWithStr (str "```") line = false := by simpa using hnotfence
    split at h
    · -- starts with '#'
      next hhash =>
      split at h
      · -- inside codeblock
        split at h
        · -- no section open
          split at h
          · injection h with h2; subst h2; exact hinv
          · exact Except.noConfusion h
        · -- append to last section
          next hsec p ps hsections =>
          injection h with h2
          subst h2
          simp only []
          rw [hsections] at hinv ⊢
          exact appendToLast_preserve _ line hinv hfeq hl
      · -- outside codeblock: heading handling
        split at h
        · next header hdp =>
          split at h
          · injection h with h2
            subst h2
            intro q hq
            rcases List.mem_append.mp hq with hin | hone
            · exact hinv q hin
            · rw [List.mem_singleton.mp hone]
              exact bodyLines_nil
          · exact Except.noConfusion h
        · exact Except.noConfusion h
    · -- ordinary line
      next hnothash =>
      split at h
      · split at h
        · injection h with h2; subst h2; exact hinv
        · exact Except.noConfusion h
      · next hsec p ps hsections =>
        injection h with h2
        subst h2
        rw [hsections] at hinv ⊢
        exact appendToLast_preserve _ line hinv hfeq hl

theorem scanLines_bodyLines (lines : List Str) (fmc : Nat) :
    ∀ (idx : Nat) (st st' : ScanState), (∀ l ∈ lines, '\n' ∉ l) →
    scanLines fmc idx st lines = .ok st' →
    (∀ q ∈ st.sections, BodyLines q.2) →
    ∀ q ∈ st'.sections, BodyLines q.2 := by
  induction lines with
  | nil =>
    intro idx st st' _ h hinv
    rw [scanLines] at h
    injection h with h2
    subst h2
    exact hinv
  | cons l ls ih =>
    intro idx st st' hnl h hinv
    rw [scanLines] at h
    cases hs : scanLine (fmc + idx + 1) st l with
    | error e => rw [hs] at h; exact Except.noConfusion h
    | ok st1 =>
      rw [hs] at h
      exact ih (idx + 1) st1 st' (fun l' hm => hnl l' (by simp [hm]))
        h (scanLine_bodyLines _ st l st1 (hnl l (by simp)) hs hinv)

/-- C10 (amended): a body line starting with the fence marker only toggles
the fence state and is never appended to any section, so in the sections
accumulated by the scanner no body line starts with the fence marker.
(After the final whitespace trim of `parse_file`, a stored body can still
begin with a fence marker when an appended line merely had leading
whitespace before its backticks.) -/
theorem fence_lines_only_toggle :
    (∀ (number : Nat) (st : ScanState) (line : Str),
        startsWithStr (str "```") line = true →
        scanLine number st line = .ok ⟨!st.inCodeblock, st.sections⟩) ∧
    (∀ (fmc idx : Nat) (lines : List Str) (st' : ScanState),
        (∀ l ∈ lines, '\n' ∉ l) →
        scanLines fmc idx ⟨false, []⟩ lines = .ok st' →
        ∀ q ∈ st'.sections, ∀ p ∈ splitChar '\n' q.2,
          startsWithStr (str "```") p = false) := by
  constructor
  · intro number st line hfence
    simp [scanLine, hfence]
  · intro fmc idx lines st' hnl h q hq p hp
    have hb : BodyLines q.2 :=
      scanLines_bodyLines lines fmc idx ⟨false, []⟩ st' hnl h (by simp) q hq
    exact bodyLines_noFence q.2 hb p hp

/-- Witness for C10 (amended): a concrete fence line toggles without
appending, and a concrete scan of a fenced section yields bodies free of
fence-marker lines. -/
theorem fence_lines_only_toggle_witness :
    scanLine 3 ⟨false, [(str "Testing", str "x\n")]⟩ (str "```rust") =
      .ok ⟨!false, [(str "Testing", str "x\n")]⟩ ∧
    ∀ q ∈ ([(str "Testing", str "code\n")] : List (Str × Str)),
      ∀ p ∈ splitChar '\n' q.2, startsWithStr (str "```") p = false :=
  ⟨fence_lines_only_toggle.1 3 ⟨false, [(str "Testing", str "x\n")]⟩ (str "```rust") (by decide),
   fence_lines_only_toggle.2 2 0
     [str "## Testing", str "```rs", str "code", str "```"]
     ⟨false, [(str "Testing", str "code\n")]⟩ (by decide) (by decide)⟩

/-- C10 counterexample: the claim concludes that no parsed section body
contains a line starting with the fence marker, but trimming the
accumulated body exposes one: the appended line `"   ```x"` (leading
whitespace, so it is not a fence line) becomes `"```x"` in the stored
section body. -/
theorem fence_in_trimmed_body_counterexample :
    parse_file decodeTierOne (str "t")
        (str "---\ntier: \"1\"\n---\n## Testing\n   ```x\n") =
      .ok { pattern := str "t", tier := some Tier.One, maintainers := [],
            sections := [(str "Testing", str "```x")], metadata := [] } ∧
    startsWithStr (str "```") (str "```x") = true := by
  constructor
  · decide
  · decide

theorem startsWithStr_refl (p : Str) : startsWithStr p p = true := by
  induction p with
  | nil => rfl
  | cons c p' ih => simp [startsWithStr, ih]

theorem startsWithStr_append_mono (p l m : Str) (h : startsWithStr p l = true) :
    startsWithStr p (l ++ m) = true := by
  induction p generalizing l with
  | nil => rfl
  | cons c p' ih =>
    cases l with
    | nil => exact absurd h (by simp [startsWithStr])
    | cons d l' =>
      simp only [List.cons_append, startsWithStr, Bool.and_eq_true,
        decide_eq_true_eq] at h ⊢
      exact ⟨h.1, ih l' h.2⟩

theorem startsWithStr_append_indep (p l x y : Str) (hlen : p.length ≤ l.length) :
    startsWithStr p (l ++ x) = startsWithStr p (l ++ y) := by
  induction p generalizing l with
  | nil => rfl
  | cons c p' ih =>
    cases l with
    | nil => simp at hlen
    | cons d l' =>
      simp only [List.cons_append, startsWithStr, List.append_eq]
      rw [ih l' (by simpa using hlen)]

theorem startsWithStr_eq_drop (sep s : Str) (h : startsWithStr sep s = true) :
    s = sep ++ s.drop sep.length := by
  induction sep generalizing s with
  | nil => simp
  | cons c p' ih =>
    cases s with
    | nil => exact absurd h (by simp [startsWithStr])
    | cons d s' =>
      simp only [startsWithStr, Bool.and_eq_true, decide_eq_true_eq] at h
      obtain ⟨rfl, h2⟩ := h
      simp only [List.length_cons, List.drop_succ_cons, List.cons_append]
      rw [← ih s' h2]

theorem breakOnSep_reconstruct (sep s b a : Str) (h : breakOnSep sep s = some (b, a)) :
    s = b ++ sep ++ a := by
  induction s generalizing b with
  | nil =>
    rw [breakOnSep] at h
    split at h
    · next hemp =>
      injection h with h2
      injection h2 with hb ha
      subst hb
      subst ha
      rw [List.isEmpty_iff.mp hemp]
      rfl
    · exact Option.noConfusion h
  | cons c s' ih =>
    rw [breakOnSep] at h
    split at h
    · next hsw =>
      injection h with h2
      injection h2 with hb ha
      subst hb
      subst ha
      rw [List.nil_append]
      exact startsWithStr_eq_drop sep (c :: s') hsw
    · next hsw =>
      cases hb : breakOnSep sep s' with
      | none => rw [hb] at h; exact Option.noConfusion h
      | some p =>
        obtain ⟨b', a'⟩ := p
        rw [hb] at h
        injection h with h2
        injection h2 with hbb haa
        subst hbb
        subst haa
        have := ih b' hb
        rw [List.cons_append, List.cons_append, ← this]

theorem breakOnSep_nil_of_ne (sep : Str) (hne : sep ≠ []) :
    breakOnSep sep [] = none := by
  rw [breakOnSep]
  cases sep with
  | nil => exact absurd rfl hne
  | cons c p => rfl

theorem breakOnSep_prefix_none (sep s b a : Str) (hne : sep ≠ [])
    (h : breakOnSep sep s = some (b, a)) : breakOnSep sep b = none := by
  induction s generalizing b a with
  | nil =>
    rw [breakOnSep] at h
    split at h
    · next hemp => exact absurd (List.isEmpty_iff.mp hemp) hne
    · exact Option.noConfusion h
  | cons c s' ih =>
    rw [breakOnSep] at h
    split at h
    · injection h with h2
      injection h2 with hb ha
      subst hb
      exact breakOnSep_nil_of_ne sep hne
    · next hsw =>
      cases hb : breakOnSep sep s' with
      | none => rw [hb] at h; exact Option.noConfusion h
      | some p =>
        obtain ⟨b', a'⟩ := p
        rw [hb] at h
        injection h with h2
        injection h2 with hbb haa
        subst hbb
        have hrec := breakOnSep_reconstruct sep s' b' a' hb
        have hnotsw : startsWithStr sep (c :: b') = false := by
          cases hcb : startsWithStr sep (c :: b') with
          | false => rfl
          | true =>
            exfalso
            apply hsw
            have hmono := startsWithStr_append_mono sep (c :: b') (sep ++ a') hcb
            rw [show (c :: b') ++ (sep ++ a') = c :: s' by rw [hrec]; simp] at hmono
            exact hmono
        rw [breakOnSep, hnotsw]
        simp only [Bool.false_eq_true, if_false]
        rw [ih b' a' hb]

theorem breakOnSep_self (sep x : Str) (hne : sep ≠ []) :
    breakOnSep sep (sep ++ x) = some ([], x) := by
  cases sep with
  | nil => exact absurd rfl hne
  | cons e p' =>
    have hstart : startsWithStr (e :: p') ((e :: p') ++ x) = true :=
      startsWithStr_append_mono _ _ x (startsWithStr_refl _)
    rw [List.cons_append] at hstart
    rw [List.cons_append, breakOnSep, hstart]
    simp only [if_true]
    rw [show e :: (p' ++ x) = (e :: p') ++ x from by simp]
    rw [List.drop_left]

theorem breakOnSep_replay (sep s b a : Str) (hne : sep ≠ [])
    (h : breakOnSep sep s = some (b, a)) (x : Str) :
    breakOnSep sep (b ++ sep ++ x) = some (b, x) := by
  induction s generalizing b a with
  | nil =>
    rw [breakOnSep] at h
    split at h
    · next hemp => exact absurd (List.isEmpty_iff.mp hemp) hne
    · exact Option.noConfusion h
  | cons c s' ih =>
    rw [breakOnSep] at h
    split at h
    · injection h with h2
      injection h2 with hb ha
      subst hb
      rw [List.nil_append]
      exact breakOnSep_self sep x hne
    · next hsw =>
      cases hb : breakOnSep sep s' with
      | none => rw [hb] at h; exact Option.noConfusion h
      | some p =>
        obtain ⟨b', a'⟩ := p
        rw [hb] at h
        injection h with h2
        injection h2 with hbb haa
        subst hbb
        have hrec := breakOnSep_reconstruct sep s' b' a' hb
        have hsw' : startsWithStr sep (c :: s') = false := by simpa using hsw
        have hnotsw : startsWithStr sep (c :: (b' ++ (sep ++ x))) = false := by
          have hind := startsWithStr_append_indep sep (c :: (b' ++ sep)) x a'
            (by simp; omega)
          have heq2 : (c :: (b' ++ sep)) ++ a' = c :: s' := by rw [hrec]; simp
          rw [heq2, hsw'] at hind
          rw [show (c :: (b' ++ sep)) ++ x = c :: (b' ++ (sep ++ x)) from by simp] at hind
          exact hind
        have hmain : breakOnSep sep (c :: (b' ++ (sep ++ x))) = some (c :: b', x) := by
          rw [breakOnSep, hnotsw]
          simp only [Bool.false_eq_true, if_false]
          have hih := ih b' a' hb
          rw [show b' ++ sep ++ x = b' ++ (sep ++ x) from by simp] at hih
          rw [hih]
        rw [show (c :: b') ++ sep ++ x = c :: (b' ++ (sep ++ x)) from by simp]
        exact hmain

theorem splitOnAux_ne_nil (sep : Str) (fuel : Nat) (s : Str) :
    splitOnAux sep fuel s ≠ [] := by
  cases fuel with
  | zero => simp [splitOnAux]
  | succ f =>
    rw [splitOnAux]
    cases breakOnSep sep s with
    | none => simp
    | some p => simp

theorem splitOnAux_of_none (sep s : Str) (h : breakOnSep sep s = none) (fuel : Nat) :
    splitOnAux sep fuel s = [s] := by
  cases fuel with
  | zero => rfl
  | succ f => rw [splitOnAux, h]

theorem splitOnAux_step (sep s b a : Str) (fuel : Nat)
    (h : breakOnSep sep s = some (b, a)) :
    splitOnAux sep (fuel + 1) s = b :: splitOnAux sep fuel a := by
  show splitOnAux sep (Nat.succ fuel) s = _
  rw [splitOnAux, h]

theorem splitOnAux_cons_inv (sep s b : Str) (tail : List Str) (fuel : Nat)
    (h : splitOnAux sep fuel s = b :: tail) (hne : tail ≠ []) :
    ∃ a, breakOnSep sep s = some (b, a) ∧ splitOnAux sep (fuel - 1) a = tail := by
  cases fuel with
  | zero =>
    rw [splitOnAux] at h
    injection h with h1 h2
    exact absurd h2.symm hne
  | succ f =>
    rw [splitOnAux] at h
    cases hb : breakOnSep sep s with
    | none =>
      rw [hb] at h
      injection h with h1 h2
      exact absurd h2.symm hne
    | some p =>
      obtain ⟨b', a⟩ := p
      rw [hb] at h
      injection h with h1 h2
      subst h1
      exact ⟨a, rfl, by simpa using h2⟩

/-- C1 (amended): the frontmatter is the piece of the document between the
first and second occurrence of the delimiter `"---\n"`, and the body is the
piece between the second and third occurrence only (or everything after the
second when there is no third): parsing is unaffected by removing
everything from the third delimiter occurrence on, so body text after a
later delimiter line is dropped, not scanned. -/
theorem parse_file_drops_after_third_delimiter
    (decodeFm : Str → Except Str Frontmatter) (name content p0 fm body : Str)
    (rest' : List Str)
    (h : splitOnStr (str "---\n") content = p0 :: fm :: body :: rest') :
    parse_file decodeFm name content =
      parse_file decodeFm name (p0 ++ str "---\n" ++ fm ++ str "---\n" ++ body) := by
  have hne : (str "---\n") ≠ ([] : Str) := by decide
  have hsep4 : (str "---\n").length = 4 := by decide
  unfold splitOnStr at h
  obtain ⟨r1, hb1, h1⟩ := splitOnAux_cons_inv _ _ _ _ _ h (by simp)
  obtain ⟨r2, hb2, h2⟩ := splitOnAux_cons_inv _ _ _ _ _ h1 (by simp)
  have hc : content = p0 ++ str "---\n" ++ r1 := breakOnSep_reconstruct _ _ _ _ hb1
  have hr1 : r1 = fm ++ str "---\n" ++ r2 := breakOnSep_reconstruct _ _ _ _ hb2
  have hclen : 8 ≤ content.length := by
    rw [hc, hr1]
    simp [hsep4]
    omega
  have hbody : breakOnSep (str "---\n") body = none := by
    cases rest' with
    | nil =>
      cases hb : breakOnSep (str "---\n") r2 with
      | none =>
        have hsingle := splitOnAux_of_none _ _ hb (content.length + 1 - 1 - 1)
        rw [hsingle] at h2
        injection h2 with h3 _
        rw [← h3]
        exact hb
      | some p =>
        obtain ⟨bb, aa⟩ := p
        exfalso
        obtain ⟨k, hk⟩ : ∃ k, content.length + 1 - 1 - 1 = k + 1 :=
          ⟨content.length - 2, by omega⟩
        rw [hk, splitOnAux, hb] at h2
        injection h2 with h3 h4
        exact splitOnAux_ne_nil _ _ _ h4
    | cons r3 rest'' =>
      obtain ⟨a3, hb3, _⟩ := splitOnAux_cons_inv _ _ _ _ _ h2 (by simp)
      exact breakOnSep_prefix_none _ _ _ _ hne hb3
  have hX1 : breakOnSep (str "---\n") (p0 ++ str "---\n" ++ (fm ++ str "---\n" ++ body)) =
      some (p0, fm ++ str "---\n" ++ body) :=
    breakOnSep_replay _ _ _ _ hne hb1 (fm ++ str "---\n" ++ body)
  have hX2 : breakOnSep (str "---\n") (fm ++ str "---\n" ++ body) = some (fm, body) :=
    breakOnSep_replay _ _ _ _ hne hb2 body
  have hsplitX : splitOnStr (str "---\n") (p0 ++ str "---\n" ++ fm ++ str "---\n" ++ body) =
      [p0, fm, body] := by
    unfold splitOnStr
    rw [show p0 ++ str "---\n" ++ fm ++ str "---\n" ++ body =
      p0 ++ str "---\n" ++ (fm ++ str "---\n" ++ body) from by simp [List.append_assoc]]
    rw [splitOnAux_step _ _ _ _ _ hX1]
    obtain ⟨m, hm⟩ :
        ∃ m, (p0 ++ str "---\n" ++ (fm ++ str "---\n" ++ body)).length = m + 1 :=
      ⟨(p0 ++ str "---\n" ++ (fm ++ str "---\n" ++ body)).length - 1,
        by simp [hsep4]; omega⟩
    rw [hm, splitOnAux_step _ _ _ _ _ hX2, splitOnAux_of_none _ _ hbody m]
  rw [show splitOnAux (str "---\n") (content.length + 1) content =
      splitOnStr (str "---\n") content from rfl] at h
  unfold parse_file
  rw [h, hsplitX]

/-- Witness for C1 (amended): a document with three delimiter occurrences
parses exactly like its truncation at the third delimiter. -/
theorem parse_file_drops_after_third_delimiter_witness :
    parse_file decodeTierOne (str "t")
        (str "---\ntier: \"1\"\n---\n## Testing\nhi\n---\nzzz\n") =
      parse_file decodeTierOne (str "t")
        (str "" ++ str "---\n" ++ str "tier: \"1\"\n" ++ str "---\n" ++
          str "## Testing\nhi\n") :=
  parse_file_drops_after_third_delimiter decodeTierOne (str "t")
    (str "---\ntier: \"1\"\n---\n## Testing\nhi\n---\nzzz\n") (str "")
    (str "tier: \"1\"\n") (str "## Testing\nhi\n") [str "zzz\n"]
    (by decide)

/-- C1 counterexample: the claim says body text after a later `---` line is
still scanned into sections, but in this document the heading
`## Building` after the third delimiter is dropped: the parsed sections are
exactly `[("Testing", "hello")]`, with no `Building` section. -/
theorem parse_file_third_delimiter_counterexample :
    parse_file decodeTierOne (str "t")
        (str "---\ntier: \"1\"\n---\n## Testing\nhello\n---\n## Building\nstuff\n") =
      .ok { pattern := str "t", tier := some Tier.One, maintainers := [],
            sections := [(str "Testing", str "hello")], metadata := [] } := by
  decide

/-- The effect of one resolution pass on a single entry's flag. -/
def markUsed (target : Str) (e : TargetPatternEntry) : TargetPatternEntry :=
  if glob e.info.pattern target then { e with used := true } else e

/-- The effect of resolving a whole target list on a single entry. -/
def markAll (targets : List Str) (e : TargetPatternEntry) : TargetPatternEntry :=
  targets.foldl (fun e t => markUsed t e) e

theorem targetInfoGo_ok_entries (target : Str) (entries : List TargetPatternEntry) :
    ∀ tierAcc maint secAcc es' out,
    targetInfoGo target tierAcc maint secAcc entries = .ok (es', out) →
    es' = entries.map (markUsed target) := by
  induction entries with
  | nil =>
    intro tierAcc maint secAcc es' out h
    rw [targetInfoGo] at h
    injection h with h2
    injection h2 with h3 h4
    rw [← h3]
    rfl
  | cons e es ih =>
    intro tierAcc maint secAcc es' out h
    rw [targetInfoGo] at h
    by_cases hglob : glob e.info.pattern target = true
    · rw [if_pos hglob] at h
      by_cases htier : (e.info.tier.isSome && tierAcc.isSome) = true
      · rw [if_pos htier] at h
        exact Except.noConfusion h
      · rw [if_neg htier] at h
        cases hins : insertSections target secAcc e.info.sections with
        | error er => rw [hins] at h; exact Except.noConfusion h
        | ok secAcc' =>
          rw [hins] at h
          dsimp only at h
          cases hrec : targetInfoGo target
              (if e.info.tier.isSome then e.info.tier else tierAcc)
              (maint ++ e.info.maintainers) secAcc' es with
          | error er => rw [hrec] at h; exact Except.noConfusion h
          | ok p =>
            obtain ⟨es2, t2, m2, s2⟩ := p
            rw [hrec] at h
            dsimp only at h
            injection h with h2
            injection h2 with h3 h4
            rw [← h3, List.map_cons, ih _ _ _ _ _ hrec]
            simp [markUsed, hglob]
    · rw [if_neg hglob] at h
      cases hrec : targetInfoGo target tierAcc maint secAcc es with
      | error er => rw [hrec] at h; exact Except.noConfusion h
      | ok p =>
        obtain ⟨es2, t2, m2, s2⟩ := p
        rw [hrec] at h
        dsimp only at h
        injection h with h2
        injection h2 with h3 h4
        rw [← h3, List.map_cons, ih _ _ _ _ _ hrec]
        have hg : glob e.info.pattern target = false := by simpa using hglob
        simp [markUsed, hg]

theorem target_info_ok_entries (entries : List TargetPatternEntry) (target : Str)
    (es' : List TargetPatternEntry) (doc : TargetDocs)
    (h : target_info entries target = .ok (es', doc)) :
    es' = entries.map (markUsed target) := by
  unfold target_info at h
  cases heq : targetInfoGo target none [] [] entries with
  | error er => rw [heq] at h; exact Except.noConfusion h
  | ok p =>
    obtain ⟨es2, t2, m2, s2⟩ := p
    rw [heq] at h
    dsimp only at h
    injection h with h2
    injection h2 with h3 h4
    rw [← h3]
    exact targetInfoGo_ok_entries target entries _ _ _ _ _ heq

theorem resolveAll_ok_entries (targets : List Str) :
    ∀ (entries entries' : List TargetPatternEntry) (docs : List TargetDocs),
    resolveAll entries targets = .ok (entries', docs) →
    entries' = targets.foldl (fun es t => es.map (markUsed t)) entries := by
  induction targets with
  | nil =>
    intro entries entries' docs h
    rw [resolveAll] at h
    injection h with h2
    injection h2 with h3 h4
    rw [← h3]
    rfl
  | cons t ts ih =>
    intro entries entries' docs h
    rw [resolveAll] at h
    cases h1 : target_info entries t with
    | error er => rw [h1] at h; exact Except.noConfusion h
    | ok p =>
      obtain ⟨entries1, doc⟩ := p
      rw [h1] at h
      dsimp only at h
      cases h2 : resolveAll entries1 ts with
      | error er => rw [h2] at h; exact Except.noConfusion h
      | ok q =>
        obtain ⟨entries2, docs2⟩ := q
        rw [h2] at h
        dsimp only at h
        injection h with h3
        injection h3 with h4 h5
        rw [← h4, List.foldl_cons]
        rw [← target_info_ok_entries entries t entries1 doc h1]
        exact ih entries1 entries2 docs2 h2

theorem foldl_map_comm (targets : List Str) :
    ∀ entries : List TargetPatternEntry,
    targets.foldl (fun es t => es.map (markUsed t)) entries =
      entries.map (markAll targets) := by
  induction targets with
  | nil =>
    intro entries
    rw [show markAll ([] : List Str) = id from funext fun e => rfl, List.map_id]
    rfl
  | cons t ts ih =>
    intro entries
    rw [List.foldl_cons, ih, List.map_map]
    apply List.map_congr_left
    intro e _
    rfl

theorem markAll_info (targets : List Str) :
    ∀ e : TargetPatternEntry, (markAll targets e).info = e.info := by
  induction targets with
  | nil => intro e; rfl
  | cons t ts ih =>
    intro e
    show (markAll ts (markUsed t e)).info = e.info
    rw [ih]
    unfold markUsed
    split <;> rfl

theorem markAll_used (targets : List Str) :
    ∀ e : TargetPatternEntry,
    (markAll targets e).used =
      (e.used || targets.any (fun t => glob e.info.pattern t)) := by
  induction targets with
  | nil => intro e; simp [markAll]
  | cons t ts ih =>
    intro e
    show (markAll ts (markUsed t e)).used = _
    rw [ih]
    by_cases hg : glob e.info.pattern t = true
    · simp [markUsed, hg, List.any_cons]
    · have hg' : glob e.info.pattern t = false := by simpa using hg
      simp [markUsed, hg', List.any_cons]

theorem validate_ok_iff (entries : List TargetPatternEntry) :
    validate entries = .ok () ↔ ∀ e ∈ entries, e.used = true := by
  induction entries with
  | nil => simp [validate]
  | cons e es ih =>
    rw [validate]
    by_cases hu : e.used = true
    · rw [if_pos hu, ih]
      constructor
      · intro hall e' hm
        rcases List.mem_cons.mp hm with rfl | hin
        · exact hu
        · exact hall e' hin
      · intro hall e' hm
        exact hall e' (by simp [hm])
    · rw [if_neg hu]
      constructor
      · intro hc; exact Except.noConfusion hc
      · intro hall; exact absurd (hall e (by simp)) hu

theorem validate_error_spec (entries : List TargetPatternEntry) (msg : Str)
    (h : validate entries = .error msg) :
    ∃ e ∈ entries, e.used = false ∧ msg = unusedMessage e.info.pattern := by
  induction entries with
  | nil => rw [validate] at h; exact Except.noConfusion h
  | cons e es ih =>
    rw [validate] at h
    by_cases hu : e.used = true
    · rw [if_pos hu] at h
      obtain ⟨e', hm, hrest⟩ := ih h
      exact ⟨e', by simp [hm], hrest⟩
    · rw [if_neg hu] at h
      injection h with h2
      exact ⟨e, by simp, by simpa using hu, h2.symm⟩

/-- C4: after resolving every known identifier in order (and provided that
pass succeeds), validation succeeds exactly when every pattern entry's glob
matched at least one identifier; when validation fails, the message names
the pattern of an entry that matched zero identifiers.  Entries enter the
pass with `used = false`, as built in `main`. -/
theorem validate_after_resolveAll
    (entries : List TargetPatternEntry) (targets : List Str)
    (entries' : List TargetPatternEntry) (docs : List TargetDocs)
    (hinit : ∀ e ∈ entries, e.used = false)
    (h : resolveAll entries targets = .ok (entries', docs)) :
    (validate entries' = .ok () ↔
      ∀ e ∈ entries, ∃ t ∈ targets, glob e.info.pattern t = true) ∧
    (∀ msg, validate entries' = .error msg →
      ∃ e ∈ entries, (∀ t ∈ targets, glob e.info.pattern t = false) ∧
        msg = unusedMessage e.info.pattern) := by
  have he : entries' = entries.map (markAll targets) := by
    rw [resolveAll_ok_entries targets entries entries' docs h, foldl_map_comm]
  constructor
  · rw [validate_ok_iff, he]
    constructor
    · intro hall e hm
      have hme := hall (markAll targets e) (List.mem_map_of_mem _ hm)
      rw [markAll_used, hinit e hm] at hme
      simp only [Bool.false_or, List.any_eq_true] at hme
      exact hme
    · intro hall e' hm'
      obtain ⟨e, hm, rfl⟩ := List.mem_map.mp hm'
      rw [markAll_used]
      obtain ⟨t, ht, hg⟩ := hall e hm
      simp only [Bool.or_eq_true, List.any_eq_true]
      exact Or.inr ⟨t, ht, hg⟩
  · intro msg hmsg
    rw [he] at hmsg
    obtain ⟨e', hm', hu, hmsgeq⟩ := validate_error_spec _ msg hmsg
    obtain ⟨e, hm, rfl⟩ := List.mem_map.mp hm'
    refine ⟨e, hm, ?_, ?_⟩
    · intro t ht
      rw [markAll_used] at hu
      simp only [Bool.or_eq_false_iff, List.any_eq_false] at hu
      simpa using hu.2 t ht
    · rw [markAll_info] at hmsgeq
      exact hmsgeq

/-- A concrete match-everything pattern entry for witnesses. -/
def infoStar : ParsedTargetInfoFile := ⟨str "*", none, [], [], []⟩

/-- Witness for C4: a store with one `*` entry resolved against one target
passes validation. -/
theorem validate_after_resolveAll_witness :
    validate [⟨infoStar, true⟩] = .ok () :=
  (validate_after_resolveAll [⟨infoStar, false⟩] [str "x"]
    [⟨infoStar, true⟩] [⟨str "x", [], [], str "UNKNOWN"⟩]
    (by decide) (by decide)).1.mpr (by decide)

theorem containsName_append (a b : List (Str × Str)) (n : Str) :
    containsName (a ++ b) n = (containsName a n || containsName b n) := by
  simp [containsName, List.any_append]

theorem insertSections_shared_fails (target s : Str) :
    ∀ (new acc : List (Str × Str)), containsName acc s = true →
    containsName new s = true →
    ∀ r, insertSections target acc new ≠ .ok r := by
  intro new
  induction new with
  | nil =>
    intro acc _ hnew
    simp [containsName] at hnew
  | cons q rest ih =>
    obtain ⟨n, c⟩ := q
    intro acc hacc hnew r h
    rw [insertSections] at h
    split at h
    · exact Except.noConfusion h
    · next hnc =>
      have hns : (n == s) = false := by
        cases hbeq : n == s with
        | false => rfl
        | true =>
          have heq : n = s := by simpa using hbeq
          subst heq
          exact absurd hacc (by simpa using hnc)
      have hrest : containsName rest s = true := by
        simpa [containsName, hns] using hnew
      have hacc' : containsName (acc ++ [(n, c)]) s = true := by
        rw [containsName_append, hacc]
        rfl
      exact ih (acc ++ [(n, c)]) hacc' hrest r h

theorem insertSections_ok_mono (target s : Str) :
    ∀ (new acc r : List (Str × Str)), insertSections target acc new = .ok r →
    containsName acc s = true → containsName r s = true := by
  intro new
  induction new with
  | nil =>
    intro acc r h hacc
    rw [insertSections] at h
    injection h with h2
    rw [← h2]
    exact hacc
  | cons q rest ih =>
    obtain ⟨n, c⟩ := q
    intro acc r h hacc
    rw [insertSections] at h
    split at h
    · exact Except.noConfusion h
    · exact ih (acc ++ [(n, c)]) r h (by rw [containsName_append, hacc]; rfl)

theorem insertSections_ok_contains_new (target s : Str) :
    ∀ (new acc r : List (Str × Str)), insertSections target acc new = .ok r →
    containsName new s = true → containsName r s = true := by
  intro new
  induction new with
  | nil =>
    intro acc r _ hnew
    simp [containsName] at hnew
  | cons q rest ih =>
    obtain ⟨n, c⟩ := q
    intro acc r h hnew
    rw [insertSections] at h
    split at h
    · exact Except.noConfusion h
    · cases hbeq : n == s with
      | true =>
        have hacc' : containsName (acc ++ [(n, c)]) s = true := by
          rw [containsName_append]
          simp [containsName, hbeq]
        exact insertSections_ok_mono target s rest (acc ++ [(n, c)]) r h hacc'
      | false =>
        have hrest : containsName rest s = true := by
          simpa [containsName, hbeq] using hnew
        exact ih (acc ++ [(n, c)]) r h hrest

theorem insertSections_nodup_ok (target : Str) :
    ∀ (new acc : List (Str × Str)), (new.map Prod.fst).Nodup →
    (∀ n ∈ new.map Prod.fst, containsName acc n = false) →
    insertSections target acc new = .ok (acc ++ new) := by
  intro new
  induction new with
  | nil =>
    intro acc _ _
    rw [insertSections, List.append_nil]
  | cons q rest ih =>
    obtain ⟨n, c⟩ := q
    intro acc hnd hdisj
    have hn : containsName acc n = false := hdisj n (by simp)
    rw [insertSections, if_neg (by simp [hn])]
    have hnd' : (rest.map Prod.fst).Nodup := by
      simpa using (List.nodup_cons.mp (by simpa using hnd)).2
    have hnmem : n ∉ rest.map Prod.fst := (List.nodup_cons.mp (by simpa using hnd)).1
    have hdisj' : ∀ n' ∈ rest.map Prod.fst, containsName (acc ++ [(n, c)]) n' = false := by
      intro n' hm
      rw [containsName_append, hdisj n' (by simp [hm])]
      have hne : (n == n') = false := by
        cases hbeq : n == n' with
        | false => rfl
        | true =>
          have heq : n = n' := by simpa using hbeq
          exact absurd (heq ▸ hm) hnmem
      simp [containsName, hne]
    rw [ih (acc ++ [(n, c)]) hnd' hdisj']
    simp

theorem insertSections_conflict_first (target s : Str) :
    ∀ (new acc : List (Str × Str)), (new.map Prod.fst).Nodup →
    containsName new s = true → containsName acc s = true →
    (∀ n, containsName new n = true → containsName acc n = true → n = s) →
    insertSections target acc new = .error (.multipleSection target s) := by
  intro new
  induction new with
  | nil =>
    intro acc _ hnew
    simp [containsName] at hnew
  | cons q rest ih =>
    obtain ⟨n, c⟩ := q
    intro acc hnd hnew hacc honly
    by_cases hn : n = s
    · subst hn
      rw [insertSections, if_pos (by simp [hacc])]
    · have hnacc : containsName acc n = false := by
        cases hcn : containsName acc n with
        | false => rfl
        | true =>
          exact absurd (honly n (by simp [containsName]) hcn) hn
      rw [insertSections, if_neg (by simp [hnacc])]
      have hnd' : (rest.map Prod.fst).Nodup := by
        simpa using (List.nodup_cons.mp (by simpa using hnd)).2
      have hnmem : n ∉ rest.map Prod.fst := (List.nodup_cons.mp (by simpa using hnd)).1
      have hns : (n == s) = false := by
        cases hbeq : n == s with
        | false => rfl
        | true => exact absurd (by simpa using hbeq) hn
      apply ih (acc ++ [(n, c)]) hnd'
      · simpa [containsName, hns] using hnew
      · rw [containsName_append, hacc]
        rfl
      · intro n' hn'rest hn'acc
        rw [containsName_append] at hn'acc
        cases hor : containsName acc n' with
        | true =>
          apply honly n'
          · have hexp : containsName ((n, c) :: rest) n' =
                ((n == n') || containsName rest n') := by simp [containsName]
            rw [hexp, hn'rest, Bool.or_true]
          · exact hor
        | false =>
          rw [hor] at hn'acc
          have : (n == n') = true := by simpa [containsName] using hn'acc
          have heq : n = n' := by simpa using this
          have hmem : n' ∈ rest.map Prod.fst := by
            simp only [containsName, List.any_eq_true] at hn'rest
            obtain ⟨q', hq', hbeq'⟩ := hn'rest
            have : q'.1 = n' := by simpa using hbeq'
            exact this ▸ List.mem_map_of_mem Prod.fst hq'
          exact absurd (heq ▸ hmem) hnmem

theorem targetInfoGo_acc_fails (target s : Str) :
    ∀ (entries : List TargetPatternEntry) (tierAcc : Option Tier) (maint : List Str)
      (secAcc : List (Str × Str)) (j : Nat) (ej : TargetPatternEntry),
    entries.get? j = some ej → glob ej.info.pattern target = true →
    containsName ej.info.sections s = true → containsName secAcc s = true →
    ∀ r, targetInfoGo target tierAcc maint secAcc entries ≠ .ok r := by
  intro entries
  induction entries with
  | nil =>
    intro tierAcc maint secAcc j ej hj
    simp at hj
  | cons e es ih =>
    intro tierAcc maint secAcc j ej hj hgj hsj hacc r h
    rw [targetInfoGo] at h
    by_cases hglob : glob e.info.pattern target = true
    · rw [if_pos hglob] at h
      by_cases htier : (e.info.tier.isSome && tierAcc.isSome) = true
      · rw [if_pos htier] at h
        exact Except.noConfusion h
      · rw [if_neg htier] at h
        cases hins : insertSections target secAcc e.info.sections with
        | error er => rw [hins] at h; exact Except.noConfusion h
        | ok secAcc' =>
          rw [hins] at h
          dsimp only at h
          cases j with
          | zero =>
            rw [List.get?_cons_zero] at hj
            injection hj with hj2
            subst hj2
            exact insertSections_shared_fails target s e.info.sections secAcc hacc hsj
              secAcc' hins
          | succ j' =>
            rw [List.get?_cons_succ] at hj
            have hacc' : containsName secAcc' s = true :=
              insertSections_ok_mono target s e.info.sections secAcc secAcc' hins hacc
            cases hrec : targetInfoGo target
                (if e.info.tier.isSome then e.info.tier else tierAcc)
                (maint ++ e.info.maintainers) secAcc' es with
            | error er => rw [hrec] at h; exact Except.noConfusion h
            | ok p =>
              exact ih _ _ _ j' ej hj hgj hsj hacc' p hrec
    · rw [if_neg hglob] at h
      cases j with
      | zero =>
        rw [List.get?_cons_zero] at hj
        injection hj with hj2
        subst hj2
        exact absurd hgj (by simpa using hglob)
      | succ j' =>
        rw [List.get?_cons_succ] at hj
        cases hrec : targetInfoGo target tierAcc maint secAcc es with
        | error er => rw [hrec] at h; exact Except.noConfusion h
        | ok p =>
          exact ih _ _ _ j' ej hj hgj hsj hacc p hrec

theorem targetInfoGo_two_shared_fails (target s : Str) :
    ∀ (entries : List TargetPatternEntry) (tierAcc : Option Tier) (maint : List Str)
      (secAcc : List (Str × Str)) (i j : Nat) (ei ej : TargetPatternEntry),
    i < j → entries.get? i = some ei → entries.get? j = some ej →
    glob ei.info.pattern target = true → glob ej.info.pattern target = true →
    containsName ei.info.sections s = true → containsName ej.info.sections s = true →
    ∀ r, targetInfoGo target tierAcc maint secAcc entries ≠ .ok r := by
  intro entries
  induction entries with
  | nil =>
    intro tierAcc maint secAcc i j ei ej _ hi
    simp at hi
  | cons e es ih =>
    intro tierAcc maint secAcc i j ei ej hij hi hj hgi hgj hsi hsj r h
    rw [targetInfoGo] at h
    cases i with
    | zero =>
      rw [List.get?_cons_zero] at hi
      injection hi with hi2
      subst hi2
      cases j with
      | zero => omega
      | succ j' =>
        rw [List.get?_cons_succ] at hj
        rw [if_pos hgi] at h
        by_cases htier : (e.info.tier.isSome && tierAcc.isSome) = true
        · rw [if_pos htier] at h
          exact Except.noConfusion h
        · rw [if_neg htier] at h
          cases hins : insertSections target secAcc e.info.sections with
          | error er => rw [hins] at h; exact Except.noConfusion h
          | ok secAcc' =>
            rw [hins] at h
            dsimp only at h
            have hacc' : containsName secAcc' s = true :=
              insertSections_ok_contains_new target s e.info.sections secAcc secAcc'
                hins hsi
            cases hrec : targetInfoGo target
                (if e.info.tier.isSome then e.info.tier else tierAcc)
                (maint ++ e.info.maintainers) secAcc' es with
            | error er => rw [hrec] at h; exact Except.noConfusion h
            | ok p =>
              exact targetInfoGo_acc_fails target s es _ _ _ j' ej hj hgj hsj hacc'
                p hrec
    | succ i' =>
      rw [List.get?_cons_succ] at hi
      cases j with
      | zero => omega
      | succ j' =>
        rw [List.get?_cons_succ] at hj
        have hij' : i' < j' := by omega
        by_cases hglob : glob e.info.pattern target = true
        · rw [if_pos hglob] at h
          by_cases htier : (e.info.tier.isSome && tierAcc.isSome) = true
          · rw [if_pos htier] at h
            exact Except.noConfusion h
          · rw [if_neg htier] at h
            cases hins : insertSections target secAcc e.info.sections with
            | error er => rw [hins] at h; exact Except.noConfusion h
            | ok secAcc' =>
              rw [hins] at h
              dsimp only at h
              cases hrec : targetInfoGo target
                  (if e.info.tier.isSome then e.info.tier else tierAcc)
                  (maint ++ e.info.maintainers) secAcc' es with
              | error er => rw [hrec] at h; exact Except.noConfusion h
              | ok p =>
                exact ih _ _ _ i' j' ei ej hij' hi hj hgi hgj hsi hsj p hrec
        · rw [if_neg hglob] at h
          cases hrec : targetInfoGo target tierAcc maint secAcc es with
          | error er => rw [hrec] at h; exact Except.noConfusion h
          | ok p =>
            exact ih _ _ _ i' j' ei ej hij' hi hj hgi hgj hsi hsj p hrec

theorem target_info_pair_conflict
    (t : Str) (e1 e2 : ParsedTargetInfoFile) (u1 u2 : Bool) (s : Str)
    (hg1 : glob e1.pattern t = true) (hg2 : glob e2.pattern t = true)
    (hnd2 : (e2.sections.map Prod.fst).Nodup)
    (hs1 : containsName e1.sections s = true) (hs2 : containsName e2.sections s = true)
    (honly : ∀ n, containsName e2.sections n = true →
      containsName e1.sections n = true → n = s)
    (htier : e1.tier = none ∨ e2.tier = none)
    (hnd1 : (e1.sections.map Prod.fst).Nodup) :
    target_info [⟨e1, u1⟩, ⟨e2, u2⟩] t = .error (.multipleSection t s) := by
  unfold target_info
  rw [targetInfoGo]
  dsimp only
  rw [if_pos hg1, if_neg (by simp),
    insertSections_nodup_ok t e1.sections [] hnd1 (fun n _ => rfl)]
  dsimp only
  rw [targetInfoGo]
  dsimp only
  rw [if_pos hg2]
  have htfalse :
      (e2.tier.isSome && (if e1.tier.isSome then e1.tier else none).isSome) = false := by
    rcases htier with h1 | h2
    · simp [h1]
    · simp [h2]
  rw [if_neg (by simp [htfalse])]
  rw [insertSections_conflict_first t s e2.sections ([] ++ e1.sections) hnd2 hs2
    (by simpa using hs1) (by simpa using honly)]

theorem target_info_pair_ok
    (t : Str) (e1 e2 : ParsedTargetInfoFile) (u1 u2 : Bool)
    (hnotboth : ¬(glob e1.pattern t = true ∧ glob e2.pattern t = true))
    (hnd1 : (e1.sections.map Prod.fst).Nodup)
    (hnd2 : (e2.sections.map Prod.fst).Nodup) :
    ∃ r, target_info [⟨e1, u1⟩, ⟨e2, u2⟩] t = .ok r := by
  unfold target_info
  by_cases hg1 : glob e1.pattern t = true
  · have hg2 : glob e2.pattern t = false := by
      cases hx : glob e2.pattern t with
      | false => rfl
      | true => exact absurd ⟨hg1, hx⟩ hnotboth
    rw [targetInfoGo]
    dsimp only
    rw [if_pos hg1, if_neg (by simp),
      insertSections_nodup_ok t e1.sections [] hnd1 (fun n _ => rfl)]
    dsimp only
    rw [targetInfoGo]
    dsimp only
    rw [if_neg (by simp [hg2]), targetInfoGo]
    exact ⟨_, rfl⟩
  · have hg1' : glob e1.pattern t = false := by simpa using hg1
    rw [targetInfoGo]
    dsimp only
    rw [if_neg (by simp [hg1'])]
    by_cases hg2 : glob e2.pattern t = true
    · rw [targetInfoGo]
      dsimp only
      rw [if_pos hg2, if_neg (by simp),
        insertSections_nodup_ok t e2.sections [] hnd2 (fun n _ => rfl)]
      dsimp only
      rw [targetInfoGo]
      exact ⟨_, rfl⟩
    · have hg2' : glob e2.pattern t = false := by simpa using hg2
      rw [targetInfoGo]
      dsimp only
      rw [if_neg (by simp [hg2']), targetInfoGo]
      exact ⟨_, rfl⟩

/-- C2 (amended): if two distinct pattern entries whose patterns both
glob-match the identifier declare the same section name, resolution fails
with a conflict; the error names that section when the section collision is
the first conflict reached — in particular, for a two-entry store whose
matching entries do not also both declare a tier and whose only shared
section name is that one; and when the two entries' patterns do not both
match the identifier, resolving a store of exactly those two entries
succeeds even when both declare the same section name. -/
theorem section_conflict_behavior (t : Str) :
    (∀ (entries : List TargetPatternEntry) (i j : Nat)
        (ei ej : TargetPatternEntry) (s : Str),
      i < j → entries.get? i = some ei → entries.get? j = some ej →
      glob ei.info.pattern t = true → glob ej.info.pattern t = true →
      containsName ei.info.sections s = true →
      containsName ej.info.sections s = true →
      ∃ er, target_info entries t = .error er) ∧
    (∀ (e1 e2 : ParsedTargetInfoFile) (u1 u2 : Bool) (s : Str),
      glob e1.pattern t = true → glob e2.pattern t = true →
      (e1.sections.map Prod.fst).Nodup → (e2.sections.map Prod.fst).Nodup →
      containsName e1.sections s = true → containsName e2.sections s = true →
      (∀ n, containsName e2.sections n = true →
        containsName e1.sections n = true → n = s) →
      (e1.tier = none ∨ e2.tier = none) →
      target_info [⟨e1, u1⟩, ⟨e2, u2⟩] t = .error (.multipleSection t s)) ∧
    (∀ (e1 e2 : ParsedTargetInfoFile) (u1 u2 : Bool),
      ¬(glob e1.pattern t = true ∧ glob e2.pattern t = true) →
      (e1.sections.map Prod.fst).Nodup → (e2.sections.map Prod.fst).Nodup →
      ∃ r, target_info [⟨e1, u1⟩, ⟨e2, u2⟩] t = .ok r) := by
  refine ⟨?_, ?_, ?_⟩
  · intro entries i j ei ej s hij hi hj hgi hgj hsi hsj
    unfold target_info
    cases hgo : targetInfoGo t none [] [] entries with
    | error er => exact ⟨er, rfl⟩
    | ok p =>
      exact absurd hgo
        (targetInfoGo_two_shared_fails t s entries none [] [] i j ei ej hij hi hj
          hgi hgj hsi hsj p)
  · intro e1 e2 u1 u2 s hg1 hg2 hnd1 hnd2 hs1 hs2 honly htier
    exact target_info_pair_conflict t e1 e2 u1 u2 s hg1 hg2 hnd2 hs1 hs2 honly htier hnd1
  · intro e1 e2 u1 u2 hnotboth hnd1 hnd2
    exact target_info_pair_ok t e1 e2 u1 u2 hnotboth hnd1 hnd2

/-- Witness for C2 (amended): two `*` entries sharing only the `Testing`
section, with at most one declared tier, conflict with an error naming
`Testing`. -/
theorem section_conflict_behavior_witness :
    target_info
      [⟨⟨str "*", none, [], [(str "Testing", str "a")], []⟩, false⟩,
       ⟨⟨str "*", some Tier.One, [], [(str "Testing", str "b")], []⟩, false⟩]
      (str "x") = .error (.multipleSection (str "x") (str "Testing")) :=
  (section_conflict_behavior (str "x")).2.1
    ⟨str "*", none, [], [(str "Testing", str "a")], []⟩
    ⟨str "*", some Tier.One, [], [(str "Testing", str "b")], []⟩
    false false (str "Testing") (by decide) (by decide) (by decide) (by decide)
    (by decide) (by decide)
    (by
      intro n h1 _
      have h' : (str "Testing" == n) = true := by simpa [containsName] using h1
      exact (by simpa using h' : str "Testing" = n).symm)
    (Or.inl rfl)

/-- C2 counterexample: two matching entries that share the section name
`Testing` and both declare a tier fail, but with the tier conflict — the
error does not name the shared section, so the claim's "fails with a
conflict naming that section" does not hold as stated. -/
theorem section_conflict_counterexample :
    target_info
      [⟨⟨str "*", some Tier.One, [], [(str "Testing", str "a")], []⟩, false⟩,
       ⟨⟨str "*", some Tier.One, [], [(str "Testing", str "b")], []⟩, false⟩]
      (str "x") = .error (.multipleTier (str "x")) := by
  decide

/-- The per-rule flag update performed by one resolution of `target`
against one matching entry's rule list. -/
def markFlags (t : Str) : List ParsedTargetMetadata → List Bool → List Bool
  | [], _ => []
  | r :: rs, flags => (flags.headD false || glob r.pattern t) :: markFlags t rs flags.tail

/-- The effect of one full-engine resolution pass on a single entry. -/
def markEntryFull (t : Str) (e : FullPatternEntry) : FullPatternEntry :=
  if glob e.info.pattern t then
    { e with used := true, metadataUsed := markFlags t e.info.metadata e.metadataUsed }
  else e

/-- The effect of resolving a whole target list on a single entry of the
full engine. -/
def markAllFull (targets : List Str) (e : FullPatternEntry) : FullPatternEntry :=
  targets.foldl (fun e t => markEntryFull t e) e

theorem processMetaGo_ok_flags (t : Str) :
    ∀ (rules : List ParsedTargetMetadata) (flags : List Bool)
      (acc : Option ParsedTargetMetadata) (fs : List Bool)
      (acc' : Option ParsedTargetMetadata),
    processMetaGo t rules flags acc = .ok (fs, acc') → fs = markFlags t rules flags := by
  intro rules
  induction rules with
  | nil =>
    intro flags acc fs acc' h
    rw [processMetaGo] at h
    injection h with h2
    injection h2 with h3 h4
    rw [← h3]
    rfl
  | cons r rs ih =>
    intro flags acc fs acc' h
    rw [processMetaGo] at h
    by_cases hg : glob r.pattern t = true
    · rw [if_pos hg] at h
      by_cases hsome : acc.isSome = true
      · rw [if_pos hsome] at h
        exact Except.noConfusion h
      · rw [if_neg hsome] at h
        cases hrec : processMetaGo t rs flags.tail (some r) with
        | error er => rw [hrec] at h; exact Except.noConfusion h
        | ok p =>
          obtain ⟨fs2, acc2⟩ := p
          rw [hrec] at h
          dsimp only at h
          injection h with h2
          injection h2 with h3 h4
          rw [← h3, markFlags, ih _ _ _ _ hrec, hg, Bool.or_true]
    · have hg' : glob r.pattern t = false := by simpa using hg
      rw [if_neg hg] at h
      cases hrec : processMetaGo t rs flags.tail acc with
      | error er => rw [hrec] at h; exact Except.noConfusion h
      | ok p =>
        obtain ⟨fs2, acc2⟩ := p
        rw [hrec] at h
        dsimp only at h
        injection h with h2
        injection h2 with h3 h4
        rw [← h3, markFlags, ih _ _ _ _ hrec, hg', Bool.or_false]

theorem fullGo_ok_entries (t : Str) :
    ∀ (entries : List FullPatternEntry) (tierAcc : Option Tier) (maint : List Str)
      (secAcc : List (Str × Str)) (metaAcc : Option ParsedTargetMetadata)
      (es' : List FullPatternEntry)
      (out : Option Tier × List Str × List (Str × Str) × Option ParsedTargetMetadata),
    fullGo t tierAcc maint secAcc metaAcc entries = .ok (es', out) →
    es' = entries.map (markEntryFull t) := by
  intro entries
  induction entries with
  | nil =>
    intro tierAcc maint secAcc metaAcc es' out h
    rw [fullGo] at h
    injection h with h2
    injection h2 with h3 h4
    rw [← h3]
    rfl
  | cons e es ih =>
    intro tierAcc maint secAcc metaAcc es' out h
    rw [fullGo] at h
    by_cases hglob : glob e.info.pattern t = true
    · rw [if_pos hglob] at h
      by_cases htier : (e.info.tier.isSome && tierAcc.isSome) = true
      · rw [if_pos htier] at h
        exact Except.noConfusion h
      · rw [if_neg htier] at h
        cases hins : insertSectionsFull t secAcc e.info.sections with
        | error er => rw [hins] at h; exact Except.noConfusion h
        | ok secAcc' =>
          rw [hins] at h
          dsimp only at h
          cases hmeta : processMetaGo t e.info.metadata e.metadataUsed metaAcc with
          | error er => rw [hmeta] at h; exact Except.noConfusion h
          | ok q =>
            obtain ⟨flags', metaAcc'⟩ := q
            rw [hmeta] at h
            dsimp only at h
            cases hrec : fullGo t (if e.info.tier.isSome then e.info.tier else tierAcc)
                (maint ++ e.info.maintainers) secAcc' metaAcc' es with
            | error er => rw [hrec] at h; exact Except.noConfusion h
            | ok p =>
              obtain ⟨es2, out2⟩ := p
              rw [hrec] at h
              dsimp only at h
              injection h with h2
              injection h2 with h3 h4
              rw [← h3, List.map_cons, ih _ _ _ _ _ _ hrec]
              rw [processMetaGo_ok_flags t _ _ _ _ _ hmeta]
              simp [markEntryFull, hglob]
    · rw [if_neg hglob] at h
      cases hrec : fullGo t tierAcc maint secAcc metaAcc es with
      | error er => rw [hrec] at h; exact Except.noConfusion h
      | ok p =>
        obtain ⟨es2, out2⟩ := p
        rw [hrec] at h
        dsimp only at h
        injection h with h2
        injection h2 with h3 h4
        rw [← h3, List.map_cons, ih _ _ _ _ _ _ hrec]
        have hg' : glob e.info.pattern t = false := by simpa using hglob
        simp [markEntryFull, hg']

theorem target_info_full_ok_entries (store : List FullPatternEntry) (t : Str)
    (store' : List FullPatternEntry) (doc : TargetDocsFull)
    (h : target_info_full store t = .ok (store', doc)) :
    store' = store.map (markEntryFull t) := by
  unfold target_info_full at h
  cases heq : fullGo t none [] [] none store with
  | error er => rw [heq] at h; exact Except.noConfusion h
  | ok p =>
    obtain ⟨es2, t2, m2, s2, mm2⟩ := p
    rw [heq] at h
    dsimp only at h
    injection h with h2
    injection h2 with h3 h4
    rw [← h3]
    exact fullGo_ok_entries t store _ _ _ _ _ _ heq

theorem resolveAllFull_ok_entries (targets : List Str) :
    ∀ (store store' : List FullPatternEntry) (docs : List TargetDocsFull),
    resolveAllFull store targets = .ok (store', docs) →
    store' = targets.foldl (fun es t => es.map (markEntryFull t)) store := by
  induction targets with
  | nil =>
    intro store store' docs h
    rw [resolveAllFull] at h
    injection h with h2
    injection h2 with h3 h4
    rw [← h3]
    rfl
  | cons t ts ih =>
    intro store store' docs h
    rw [resolveAllFull] at h
    cases h1 : target_info_full store t with
    | error er => rw [h1] at h; exact Except.noConfusion h
    | ok p =>
      obtain ⟨store1, doc⟩ := p
      rw [h1] at h
      dsimp only at h
      cases h2 : resolveAllFull store1 ts with
      | error er => rw [h2] at h; exact Except.noConfusion h
      | ok q =>
        obtain ⟨store2, docs2⟩ := q
        rw [h2] at h
        dsimp only at h
        injection h with h3
        injection h3 with h4 h5
        rw [← h4, List.foldl_cons]
        rw [← target_info_full_ok_entries store t store1 doc h1]
        exact ih store1 store2 docs2 h2

theorem markFlags_get_true (t : Str) :
    ∀ (rules : List ParsedTargetMetadata) (flags : List Bool) (k : Nat)
      (r : ParsedTargetMetadata),
    rules.get? k = some r → glob r.pattern t = true →
    (markFlags t rules flags).get? k = some true := by
  intro rules
  induction rules with
  | nil => intro flags k r hk; simp at hk
  | cons r0 rs ih =>
    intro flags k r hk hg
    cases k with
    | zero =>
      rw [List.get?_cons_zero] at hk
      injection hk with hk2
      subst hk2
      rw [markFlags, List.get?_cons_zero, hg, Bool.or_true]
    | succ k' =>
      rw [List.get?_cons_succ] at hk
      rw [markFlags, List.get?_cons_succ]
      exact ih flags.tail k' r hk hg

theorem markFlags_get_mono (t : Str) :
    ∀ (rules : List ParsedTargetMetadata) (flags : List Bool) (k : Nat),
    flags.get? k = some true → k < rules.length →
    (markFlags t rules flags).get? k = some true := by
  intro rules
  induction rules with
  | nil => intro flags k _ hlt; simp at hlt
  | cons r0 rs ih =>
    intro flags k hk hlt
    cases k with
    | zero =>
      cases flags with
      | nil => simp at hk
      | cons f fs =>
        rw [List.get?_cons_zero] at hk
        injection hk with hk2
        rw [markFlags, List.get?_cons_zero]
        simp [← hk2]
    | succ k' =>
      cases flags with
      | nil => simp at hk
      | cons f fs =>
        rw [List.get?_cons_succ] at hk
        rw [markFlags, List.get?_cons_succ]
        exact ih fs k' (by simpa using hk) (by simpa using Nat.lt_of_succ_lt_succ hlt)

theorem markFlags_length (t : Str) :
    ∀ (rules : List ParsedTargetMetadata) (flags : List Bool),
    (markFlags t rules flags).length = rules.length := by
  intro rules
  induction rules with
  | nil => intro flags; rfl
  | cons r rs ih => intro flags; rw [markFlags]; simp [ih]

theorem markEntryFull_info (t : Str) (e : FullPatternEntry) :
    (markEntryFull t e).info = e.info := by
  unfold markEntryFull
  split <;> rfl

theorem markEntryFull_wf (t : Str) (e : FullPatternEntry)
    (hwf : e.metadataUsed.length = e.info.metadata.length) :
    (markEntryFull t e).metadataUsed.length = (markEntryFull t e).info.metadata.length := by
  unfold markEntryFull
  split
  · simp [markFlags_length]
  · exact hwf

theorem markEntryFull_flag_mono (t : Str) (e : FullPatternEntry) (k : Nat)
    (hwf : e.metadataUsed.length = e.info.metadata.length)
    (hk : e.metadataUsed.get? k = some true) :
    (markEntryFull t e).metadataUsed.get? k = some true := by
  unfold markEntryFull
  split
  · show (markFlags t e.info.metadata e.metadataUsed).get? k = some true
    have hlen : k < e.metadataUsed.length := by
      obtain ⟨hl, -⟩ := List.get?_eq_some.mp hk
      exact hl
    exact markFlags_get_mono t e.info.metadata e.metadataUsed k hk (hwf ▸ hlen)
  · exact hk

theorem markAllFull_info (targets : List Str) :
    ∀ e : FullPatternEntry, (markAllFull targets e).info = e.info := by
  induction targets with
  | nil => intro e; rfl
  | cons t ts ih =>
    intro e
    show (markAllFull ts (markEntryFull t e)).info = e.info
    rw [ih, markEntryFull_info]

theorem markAllFull_wf (targets : List Str) :
    ∀ e : FullPatternEntry, e.metadataUsed.length = e.info.metadata.length →
    (markAllFull targets e).metadataUsed.length =
      (markAllFull targets e).info.metadata.length := by
  induction targets with
  | nil => intro e hwf; exact hwf
  | cons t ts ih =>
    intro e hwf
    show (markAllFull ts (markEntryFull t e)).metadataUsed.length = _
    exact ih (markEntryFull t e) (markEntryFull_wf t e hwf)

theorem markAllFull_flag_mono (targets : List Str) :
    ∀ (e : FullPatternEntry) (k : Nat),
    e.metadataUsed.length = e.info.metadata.length →
    e.metadataUsed.get? k = some true →
    (markAllFull targets e).metadataUsed.get? k = some true := by
  induction targets with
  | nil => intro e k _ hk; exact hk
  | cons t ts ih =>
    intro e k hwf hk
    show (markAllFull ts (markEntryFull t e)).metadataUsed.get? k = some true
    exact ih (markEntryFull t e) k (markEntryFull_wf t e hwf)
      (markEntryFull_flag_mono t e k hwf hk)

theorem validateMetaFlags_ok_of_all (p : Str) :
    ∀ (rules : List ParsedTargetMetadata) (flags : List Bool),
    flags.length = rules.length →
    (∀ k, flags.get? k ≠ some false) →
    validateMetaFlags p rules flags = .ok () := by
  intro rules
  induction rules with
  | nil => intro flags _ _; rfl
  | cons r rs ih =>
    intro flags hwf hall
    cases flags with
    | nil => simp at hwf
    | cons f fs =>
      have hf : f = true := by
        cases hfv : f with
        | true => rfl
        | false => exact absurd (by rw [List.get?_cons_zero, hfv]) (hall 0)
      rw [validateMetaFlags]
      rw [show (f :: fs).headD false = f from rfl, hf, if_pos rfl]
      exact ih fs (by simpa using hwf) (fun k => by
        have := hall (k + 1)
        simpa using this)

theorem validateMetaFlags_first_false (p : Str) :
    ∀ (rules : List ParsedTargetMetadata) (flags : List Bool),
    flags.length = rules.length →
    (∃ k, flags.get? k = some false) →
    ∃ k rr, flags.get? k = some false ∧ rules.get? k = some rr ∧
      validateMetaFlags p rules flags = .error (.unusedMetadata p rr.pattern) := by
  intro rules
  induction rules with
  | nil =>
    intro flags hwf hex
    obtain ⟨k, hk⟩ := hex
    rw [List.length_eq_zero.mp hwf] at hk
    simp at hk
  | cons r rs ih =>
    intro flags hwf hex
    cases flags with
    | nil => simp at hwf
    | cons f fs =>
      cases hfv : f with
      | false =>
        refine ⟨0, r, ?_, rfl, ?_⟩
        · rfl
        · rw [validateMetaFlags]
          simp
      | true =>
        have hex' : ∃ k, fs.get? k = some false := by
          obtain ⟨k, hk⟩ := hex
          cases k with
          | zero =>
            rw [List.get?_cons_zero, hfv] at hk
            exact absurd hk (by simp)
          | succ k' => exact ⟨k', by simpa using hk⟩
        obtain ⟨k, rr, hk, hr, hval⟩ := ih fs (by simpa using hwf) hex'
        refine ⟨k + 1, rr, by simpa using hk, by simpa using hr, ?_⟩
        rw [validateMetaFlags]
        simpa using hval

theorem validateFull_unused_meta :
    ∀ store : List FullPatternEntry,
    (∀ e ∈ store, e.metadataUsed.length = e.info.metadata.length) →
    (∀ e ∈ store, e.used = true) →
    (∃ e ∈ store, ∃ k, e.metadataUsed.get? k = some false) →
    ∃ e ∈ store, ∃ k rr, e.metadataUsed.get? k = some false ∧
      e.info.metadata.get? k = some rr ∧
      validateFull store = .error (.unusedMetadata e.info.pattern rr.pattern) := by
  intro store
  induction store with
  | nil =>
    intro _ _ hex
    obtain ⟨e, hm, _⟩ := hex
    simp at hm
  | cons e es ih =>
    intro hwf hused hex
    have hu : e.used = true := hused e (by simp)
    by_cases hfirst : ∃ k, e.metadataUsed.get? k = some false
    · obtain ⟨k, rr, hk, hr, hval⟩ :=
        validateMetaFlags_first_false e.info.pattern e.info.metadata e.metadataUsed
          (hwf e (by simp)) hfirst
      refine ⟨e, by simp, k, rr, hk, hr, ?_⟩
      rw [validateFull, if_pos hu, hval]
    · have hok : validateMetaFlags e.info.pattern e.info.metadata e.metadataUsed = .ok () :=
        validateMetaFlags_ok_of_all e.info.pattern e.info.metadata e.metadataUsed
          (hwf e (by simp))
          (fun k hk => hfirst ⟨k, hk⟩)
      have hex' : ∃ e' ∈ es, ∃ k, e'.metadataUsed.get? k = some false := by
        obtain ⟨e', hm', k, hk⟩ := hex
        rcases List.mem_cons.mp hm' with rfl | hin
        · exact absurd ⟨k, hk⟩ hfirst
        · exact ⟨e', hin, k, hk⟩
      obtain ⟨e', hm', k, rr, hk, hr, hval⟩ := ih
        (fun e' hm => hwf e' (by simp [hm])) (fun e' hm => hused e' (by simp [hm])) hex'
      refine ⟨e', by simp [hm'], k, rr, hk, hr, ?_⟩
      rw [validateFull, if_pos hu, hok]
      exact hval

theorem foldl_map_comm_full (targets : List Str) :
    ∀ store : List FullPatternEntry,
    targets.foldl (fun es t => es.map (markEntryFull t)) store =
      store.map (markAllFull targets) := by
  induction targets with
  | nil =>
    intro store
    rw [show markAllFull ([] : List Str) = id from funext fun e => rfl, List.map_id]
    rfl
  | cons t ts ih =>
    intro store
    rw [List.foldl_cons, ih, List.map_map]
    apply List.map_congr_left
    intro e _
    rfl

/-- C3 (modelled from the spec): during resolution of one identifier with
the full engine, every nested metadata rule whose nested pattern
glob-matches the identifier, inside an entry whose pattern matches, has its
usage flag set to true in the returned store; a flag already true survives
a full resolution pass; and a store whose entries are all used but which
still carries a false metadata-usage flag fails validation with an error
naming the owning entry's pattern and the unused rule's nested
sub-pattern. -/
theorem metadata_rules_marking_and_validation :
    (∀ (t : Str) (store store' : List FullPatternEntry) (doc : TargetDocsFull)
        (i k : Nat) (e : FullPatternEntry) (r : ParsedTargetMetadata),
      target_info_full store t = .ok (store', doc) →
      store.get? i = some e → e.info.metadata.get? k = some r →
      glob e.info.pattern t = true → glob r.pattern t = true →
      ∃ e', store'.get? i = some e' ∧ e'.metadataUsed.get? k = some true) ∧
    (∀ (targets : List Str) (store store' : List FullPatternEntry)
        (docs : List TargetDocsFull) (i k : Nat) (e : FullPatternEntry),
      (∀ e' ∈ store, e'.metadataUsed.length = e'.info.metadata.length) →
      resolveAllFull store targets = .ok (store', docs) →
      store.get? i = some e → e.metadataUsed.get? k = some true →
      ∃ e', store'.get? i = some e' ∧ e'.metadataUsed.get? k = some true) ∧
    (∀ store : List FullPatternEntry,
      (∀ e ∈ store, e.metadataUsed.length = e.info.metadata.length) →
      (∀ e ∈ store, e.used = true) →
      (∃ e ∈ store, ∃ k, e.metadataUsed.get? k = some false) →
      ∃ e ∈ store, ∃ k rr, e.metadataUsed.get? k = some false ∧
        e.info.metadata.get? k = some rr ∧
        validateFull store = .error (.unusedMetadata e.info.pattern rr.pattern)) := by
  refine ⟨?_, ?_, validateFull_unused_meta⟩
  · intro t store store' doc i k e r h hi hk hge hgr
    have he : store' = store.map (markEntryFull t) :=
      target_info_full_ok_entries store t store' doc h
    refine ⟨markEntryFull t e, ?_, ?_⟩
    · rw [he, List.get?_map, hi]
      rfl
    · unfold markEntryFull
      rw [if_pos hge]
      exact markFlags_get_true t e.info.metadata e.metadataUsed k r hk hgr
  · intro targets store store' docs i k e hwf h hi hk
    have he : store' = store.map (markAllFull targets) := by
      rw [resolveAllFull_ok_entries targets store store' docs h, foldl_map_comm_full]
    refine ⟨markAllFull targets e, ?_, ?_⟩
    · rw [he, List.get?_map, hi]
      rfl
    · exact markAllFull_flag_mono targets e k (hwf e (List.get?_mem hi)) hk

/-- A concrete nested metadata rule and entry for the C3 witness. -/
def ruleX : ParsedTargetMetadata := ⟨str "x*", str "n", .Unknown, .Unknown, []⟩

/-- A concrete pattern-entry info owning `ruleX`. -/
def infoMeta : ParsedTargetInfoFile := ⟨str "*", none, [], [], [ruleX]⟩

/-- Witness for C3: resolving `x1` against a `*` entry with an `x*` rule
marks the rule used; a store with the flag still false fails validation
naming `*` and `x*`. -/
theorem metadata_rules_marking_and_validation_witness :
    (∃ e', ([⟨infoMeta, true, [true]⟩] : List FullPatternEntry).get? 0 = some e' ∧
      e'.metadataUsed.get? 0 = some true) ∧
    (∃ e ∈ ([⟨infoMeta, true, [false]⟩] : List FullPatternEntry), ∃ k rr,
      e.metadataUsed.get? k = some false ∧ e.info.metadata.get? k = some rr ∧
      validateFull [⟨infoMeta, true, [false]⟩] =
        .error (.unusedMetadata e.info.pattern rr.pattern)) :=
  ⟨metadata_rules_marking_and_validation.1 (str "x1") [⟨infoMeta, false, [false]⟩]
     [⟨infoMeta, true, [true]⟩] ⟨str "x1", [], [], none, some ruleX⟩ 0 0
     ⟨infoMeta, false, [false]⟩ ruleX (by decide) rfl rfl (by decide) (by decide),
   metadata_rules_marking_and_validation.2.2 [⟨infoMeta, true, [false]⟩]
     (by decide) (by decide) ⟨⟨infoMeta, true, [false]⟩, by decide, 0, rfl⟩⟩

/-- C9: a maintainer string starting with `@` and containing no space is
rendered as the GitHub profile link `[@name](https://github.com/name)`
(with `name` the text after the `@`); any other maintainer string is
rendered unchanged as literal text. -/
theorem maintainer_link_behavior (m : Str) :
    (∀ rest, m = '@' :: rest → containsChar ' ' m = false →
      maintainerEntry m =
        str "[@" ++ rest ++ str "](https://github.com/" ++ rest ++ str ")") ∧
    (¬(startsWithStr (str "@") m = true ∧ containsChar ' ' m = false) →
      maintainerEntry m = m) := by
  constructor
  · intro rest hm hns
    subst hm
    have h1 : startsWithStr ['@'] ('@' :: rest) = true := by
      simp [startsWithStr]
    simp [maintainerEntry, h1, hns, dropPrefixStr, str]
  · intro hnot
    have hcond : (startsWithStr (str "@") m && !containsChar ' ' m) = false := by
      cases hs : startsWithStr (str "@") m <;> cases hc : containsChar ' ' m <;>
        simp_all
    unfold maintainerEntry
    rw [if_neg (by simp [hcond])]

/-- Witness for C9: `@alice` becomes a profile link; `Alice Example`
(containing a space) stays literal. -/
theorem maintainer_link_behavior_witness :
    maintainerEntry (str "@alice") =
      str "[@" ++ str "alice" ++ str "](https://github.com/" ++ str "alice" ++ str ")" ∧
    maintainerEntry (str "Alice Example") = str "Alice Example" :=
  ⟨(maintainer_link_behavior (str "@alice")).1 (str "alice") (by decide) (by decide),
   (maintainer_link_behavior (str "Alice Example")).2 (by decide)⟩

/-- C8 (amended): when the text contains the start marker and, after it,
the end marker, the splice keeps every byte before the start marker, the
two marker strings themselves, and every byte after the end marker, and
replaces the text strictly between the markers with the new content
wrapped in one leading and one trailing newline; if either marker is
absent the operation fails. -/
theorem replace_section_behavior (name repl : Str) :
    (∀ (text pre rest mid post : Str),
      breakOnSep (startMarker name) text = some (pre, rest) →
      breakOnSep (endMarker name) rest = some (mid, post) →
      text = pre ++ startMarker name ++ (mid ++ endMarker name ++ post) ∧
      replace_section text name repl =
        .ok (pre ++ startMarker name ++ str "\n" ++ repl ++ str "\n" ++
          endMarker name ++ post)) ∧
    (∀ text : Str, breakOnSep (startMarker name) text = none →
      replace_section text name repl =
        .error (str "<!-- TARGET SECTION START --> not found")) ∧
    (∀ (text pre rest : Str),
      breakOnSep (startMarker name) text = some (pre, rest) →
      breakOnSep (endMarker name) rest = none →
      replace_section text name repl =
        .error (str "<!-- TARGET SECTION START --> not found")) := by
  refine ⟨?_, ?_, ?_⟩
  · intro text pre rest mid post h1 h2
    constructor
    · have ht := breakOnSep_reconstruct _ _ _ _ h1
      have hr := breakOnSep_reconstruct _ _ _ _ h2
      rw [ht, hr]
    · unfold replace_section
      rw [h1]
      dsimp only
      rw [h2]
  · intro text h1
    unfold replace_section
    rw [h1]
  · intro text pre rest h1 h2
    unfold replace_section
    rw [h1]
    dsimp only
    rw [h2]

/-- Witness for C8 (amended): a concrete splice around `R` markers. -/
theorem replace_section_behavior_witness :
    str "P<!-- R SECTION START -->m<!-- R SECTION END -->Q" =
      str "P" ++ startMarker (str "R") ++
        (str "m" ++ endMarker (str "R") ++ str "Q") ∧
    replace_section (str "P<!-- R SECTION START -->m<!-- R SECTION END -->Q")
        (str "R") (str "x") =
      .ok (str "P" ++ startMarker (str "R") ++ str "\n" ++ str "x" ++ str "\n" ++
        endMarker (str "R") ++ str "Q") :=
  (replace_section_behavior (str "R") (str "x")).1
    (str "P<!-- R SECTION START -->m<!-- R SECTION END -->Q")
    (str "P") (str "m<!-- R SECTION END -->Q") (str "m") (str "Q")
    (by decide) (by decide)

/-- C8 counterexample: the claim says the text strictly between the markers
is replaced by exactly the new content, but the splice inserts a newline on
each side of the content: splicing `x` between adjacent markers yields
`...-->\nx\n<!--...`, not `...-->x<!--...`. -/
theorem replace_section_counterexample :
    replace_section (str "AB<!-- R SECTION START -->old<!-- R SECTION END -->CD")
        (str "R") (str "x") =
      .ok (str "AB<!-- R SECTION START -->\nx\n<!-- R SECTION END -->CD") ∧
    (str "AB<!-- R SECTION START -->\nx\n<!-- R SECTION END -->CD" : Str) ≠
      str "AB<!-- R SECTION START -->x<!-- R SECTION END -->CD" := by
  constructor
  · decide
  · decide

theorem count_foldl_append (fn : Footnote) :
    ∀ (l : List (TargetDocsFull × RustcTargetInfo)) (acc : List Footnote),
    (l.foldl (fun a p => a ++ rowFootnotes p.1) acc).count fn =
      acc.count fn + (l.map (fun p => (rowFootnotes p.1).count fn)).sum := by
  intro l
  induction l with
  | nil => intro acc; simp
  | cons p l ih =>
    intro acc
    rw [List.foldl_cons, ih, List.map_cons, List.sum_cons, List.count_append]
    omega

theorem footnoteBlock_foldl (fns : List Footnote) :
    ∀ acc : Str,
    fns.foldl (fun acc f => acc ++ str "\n\n" ++ footnoteRef f ++ str ": " ++ f.content) acc =
      acc ++ concatStr (fns.map (fun f =>
        str "\n\n" ++ footnoteRef f ++ str ": " ++ f.content)) := by
  induction fns with
  | nil => intro acc; simp [concatStr]
  | cons f fns ih =>
    intro acc
    rw [List.foldl_cons, ih, List.map_cons]
    show _ = acc ++ concatStr ((str "\n\n" ++ footnoteRef f ++ str ": " ++ f.content) :: _)
    rw [show ∀ (x : Str) (l : List Str), concatStr (x :: l) = x ++ concatStr l from
      fun x l => rfl]
    simp [List.append_assoc]

/-- C7 (amended): the rendered tier table is the joined rows of all
included targets followed by one `[^marker]: content` line block for every
element of the collected footnote list; that list is the concatenation of
the included rows' footnote lists in row order, so a footnote is appended
once per referencing row — a footnote referenced by several rows appears
several times, and distinct footnotes appear in first-seen (row) order. -/
theorem render_table_footnotes_behavior :
    (∀ (targets : List (TargetDocsFull × RustcTargetInfo)) (table : TierTable),
      render_table targets table =
        joinSep (str "\n")
            ((includedTargets targets table).map (fun p => renderRow table p.1)) ++
          footnoteBlock (tableFootnotes targets table)) ∧
    (∀ (targets : List (TargetDocsFull × RustcTargetInfo)) (table : TierTable)
        (fn : Footnote),
      (tableFootnotes targets table).count fn =
        ((includedTargets targets table).map
          (fun p => (rowFootnotes p.1).count fn)).sum) ∧
    (∀ fns : List Footnote,
      footnoteBlock fns =
        concatStr (fns.map (fun f =>
          str "\n\n" ++ footnoteRef f ++ str ": " ++ f.content))) := by
  refine ⟨fun targets table => rfl, ?_, ?_⟩
  · intro targets table fn
    unfold tableFootnotes
    rw [count_foldl_append fn (includedTargets targets table) []]
    simp
  · intro fns
    unfold footnoteBlock
    rw [footnoteBlock_foldl fns []]
    simp

/-- A concrete footnote shared by two rows. -/
def fnA : Footnote := ⟨str "a", str "b"⟩

/-- Metadata carrying `fnA`. -/
def metaA : ParsedTargetMetadata := ⟨str "p", str "n", .Unknown, .Unknown, [fnA]⟩

/-- Two resolved records that both reference `fnA`. -/
def tDoc1 : TargetDocsFull := ⟨str "t1", [], [], some Tier.One, some metaA⟩

/-- Second record referencing the same footnote. -/
def tDoc2 : TargetDocsFull := ⟨str "t2", [], [], some Tier.One, some metaA⟩

/-- A tier table including every record, with no optional columns. -/
def allTable : TierTable := ⟨fun _ => true, false, false⟩

/-- C7 counterexample: a footnote referenced by two rows is appended twice
below the table, not exactly once — the collected footnote list holds it
once per referencing row, and the rendered table ends with two identical
`[^a]: b` definition blocks. -/
theorem render_table_footnotes_counterexample :
    tableFootnotes [(tDoc1, ⟨[]⟩), (tDoc2, ⟨[]⟩)] allTable = [fnA, fnA] ∧
    render_table [(tDoc1, ⟨[]⟩), (tDoc2, ⟨[]⟩)] allTable =
      str "[`t1`](platform-support/targets/t1.md) | n [^a]\n[`t2`](platform-support/targets/t2.md) | n [^a]\n\n[^a]: b\n\n[^a]: b" := by
  constructor
  · decide
  · decide
